import Mathlib

/-!
Shallow embedding of `src/main.rs` (a static Huffman prefix-coding engine):
the `HuffmanNode` / `HuffmanTree` data model, `HuffmanTree::build` (including a
faithful model of Rust's `std::collections::BinaryHeap` with the program's
reversed `Ord for HeapNode` that compares frequencies only), `build_codes`,
`encode`, `decode`, `bytes_to_bits` and `bits_to_bytes`.

Modelling conventions:
- a symbol (Rust `u8`) is a `Nat`; where the byte range matters a `< 256`
  hypothesis is stated explicitly;
- `HashMap<u8, usize>` input of `build` is modelled as the association list
  `freqs : List (Nat × Nat)` giving the map's iteration sequence (Rust's
  `HashMap` iteration order is unspecified, so it is an explicit parameter);
- the `codes : HashMap<u8, Vec<bool>>` member is modelled as a function
  `Nat → Option (List Bool)`; `insert` is pointwise functional update;
- Rust panics (`unwrap` on an empty heap, the `assert!` in `bits_to_bytes`)
  are modelled as `none`;
- unbounded loops (`BinaryHeap` sifting, the build loop, the decode loop) are
  modelled with an explicit fuel argument; sufficiency of the fuel used by the
  wrappers is proved, not assumed.
-/

namespace LangEncode

/-- Rust `enum HuffmanNode { Leaf { byte }, Internal { left, right } }`. -/
inductive HuffmanNode where
  | leaf (byte : Nat)
  | internal (left right : HuffmanNode)
deriving DecidableEq

/-- Height of a node; used only to size the decode fuel. -/
def HuffmanNode.height : HuffmanNode → Nat
  | .leaf _ => 0
  | .internal l r => max l.height r.height + 1

/-- The leaf symbols of a node, left to right. -/
def HuffmanNode.leafList : HuffmanNode → List Nat
  | .leaf b => [b]
  | .internal l r => l.leafList ++ r.leafList

/-- Rust `struct HeapNode { freq: usize, node: Rc<HuffmanNode> }`. -/
structure HeapNode where
  freq : Nat
  node : HuffmanNode
deriving DecidableEq

/-- Placeholder element for out-of-range reads (never hit at the call sites). -/
def dfltHeapNode : HeapNode := ⟨0, .leaf 0⟩

/-- Rust `impl Ord for HeapNode { fn cmp(&self, other) { other.freq.cmp(&self.freq) } }`:
`a <= b` holds exactly when `b.freq <= a.freq` (the comparator is reversed, so
Rust's max-`BinaryHeap` behaves as a min-heap on `freq`; ties compare equal no
matter the `node`). -/
def hLe (a b : HeapNode) : Bool := decide (b.freq ≤ a.freq)

/-- Rust `BinaryHeap::sift_up(start, pos)` (hole method): the hole at `pos`
carries `x`; while the hole is below `start` and `x` is greater than the
parent, the parent moves down into the hole; finally `x` is written at the
hole.  `fuel ≥ pos` iterations always suffice since the hole index strictly
decreases. -/
def siftUpAux : HeapNode → List HeapNode → Nat → Nat → Nat → List HeapNode
  | x, d, pos, _, 0 => d.set pos x
  | x, d, pos, start, fuel + 1 =>
    if start < pos then
      let parent := (pos - 1) / 2
      let p := d.getD parent dfltHeapNode
      if hLe x p then d.set pos x
      else siftUpAux x (d.set pos p) parent start fuel
    else d.set pos x

/-- The downward phase of Rust `BinaryHeap::sift_down_to_bottom`: the hole at
`pos` moves to the greater child (ties prefer the right child, mirroring
`child += (hole.get(child) <= hole.get(child + 1)) as usize`) until no child is
in range; returns the moved array and the final hole position. -/
def siftDownAux : List HeapNode → Nat → Nat → Nat → List HeapNode × Nat
  | d, pos, _, 0 => (d, pos)
  | d, pos, endd, fuel + 1 =>
    let child := 2 * pos + 1
    if child + 2 ≤ endd then
      let c := if hLe (d.getD child dfltHeapNode) (d.getD (child + 1) dfltHeapNode)
               then child + 1 else child
      siftDownAux (d.set pos (d.getD c dfltHeapNode)) c endd fuel
    else if child + 1 = endd then
      (d.set pos (d.getD child dfltHeapNode), child)
    else (d, pos)

/-- Rust `BinaryHeap::sift_down_to_bottom(pos)`: move the hole to the bottom of
the greater-child path, then sift the carried element back up from there. -/
def siftDownToBottom (d : List HeapNode) (pos : Nat) : List HeapNode :=
  let x := d.getD pos dfltHeapNode
  let dp := siftDownAux d pos d.length d.length
  siftUpAux x dp.1 dp.2 pos dp.2

/-- Rust `BinaryHeap::push`: append, then sift up from the last position. -/
def heapPush (d : List HeapNode) (x : HeapNode) : List HeapNode :=
  siftUpAux x (d ++ [x]) d.length 0 d.length

/-- Rust `BinaryHeap::pop`: `data.pop()` takes the last element; if the heap is
still nonempty it is swapped with the root (which is returned) and sifted down. -/
def heapPop (d : List HeapNode) : Option (HeapNode × List HeapNode) :=
  match d with
  | [] => none
  | _ :: _ =>
    let item := d.getLastD dfltHeapNode
    let d1 := d.dropLast
    if d1.isEmpty then some (item, [])
    else some (d1.headD dfltHeapNode, siftDownToBottom (d1.set 0 item) 0)

/-- The `while heap.len() > 1` merge loop of `HuffmanTree::build`, followed by
the final `heap.pop().unwrap().node`; `none` models the `unwrap` panic (empty
heap) or fuel exhaustion. -/
def buildLoop : Nat → List HeapNode → Option HuffmanNode
  | 0, _ => none
  | fuel + 1, d =>
    if 1 < d.length then
      match heapPop d with
      | none => none
      | some (left, d1) =>
        match heapPop d1 with
        | none => none
        | some (right, d2) =>
          buildLoop fuel (heapPush d2 ⟨left.freq + right.freq, .internal left.node right.node⟩)
    else (heapPop d).map (fun p => p.1.node)

/-- Rust `HuffmanTree::build_codes(node, prefix, codes)`: at a leaf insert the
accumulated path; at an internal node recurse left with an appended `false`,
then right with an appended `true` (so a later right insert overwrites an
earlier left one, exactly as `HashMap::insert`). -/
def build_codes : HuffmanNode → List Bool → (Nat → Option (List Bool)) → Nat → Option (List Bool)
  | .leaf b, pre, codes => fun s => if s = b then some pre else codes s
  | .internal l r, pre, codes =>
      build_codes r (pre ++ [true]) (build_codes l (pre ++ [false]) codes)

/-- Rust `struct HuffmanTree { root, codes }`. -/
structure HuffmanTree where
  root : HuffmanNode
  codes : Nat → Option (List Bool)

/-- Rust `HuffmanTree::build(freqs)`: push one leaf per table entry (in the
map's iteration order, the explicit list order here), run the merge loop, then
derive the codes.  `freqs.length + 1` fuel always suffices: the heap starts
with `freqs.length` entries and each loop iteration shrinks it by one. -/
def HuffmanTree.build (freqs : List (Nat × Nat)) : Option HuffmanTree :=
  let heap := freqs.foldl (fun d sf => heapPush d ⟨sf.2, .leaf sf.1⟩) []
  match buildLoop (freqs.length + 1) heap with
  | none => none
  | some root => some ⟨root, build_codes root [] (fun _ => none)⟩

/-- The root of the built tree (used to compare runs of `build`). -/
def buildRoot (freqs : List (Nat × Nat)) : Option HuffmanNode :=
  (HuffmanTree.build freqs).map (fun t => t.root)

/-- Rust `HuffmanTree::encode`: for each byte, if the codebook has a code,
append it; a byte without an entry is silently skipped (`if let Some`). -/
def encodeFn : (Nat → Option (List Bool)) → List Nat → List Bool
  | _, [] => []
  | codes, b :: rest =>
    (match codes b with
     | some code => code
     | none => []) ++ encodeFn codes rest

/-- Method form of `encode`. -/
def HuffmanTree.encode (t : HuffmanTree) (data : List Nat) : List Bool :=
  encodeFn t.codes data

/-- Rust `HuffmanTree::decode`'s loop, one fuel unit per iteration.  The Rust
loop reads `bits[i]` (or a virtual `false` once `i ≥ bits.len()`); here `bits`
is the remaining suffix `bits[i..]`, so `i < bits.len()` is `bits ≠ []`.  On
reaching a leaf the symbol is emitted; the loop breaks if the consumed bit was
virtual, otherwise the cursor resets to the root.  `none` models only fuel
exhaustion — the rewrites below prove it never happens for the fuel used by
`HuffmanTree.decode`. -/
def decodeLoop : Nat → HuffmanNode → HuffmanNode → List Bool → List Nat → Option (List Nat)
  | 0, _, _, _, _ => none
  | fuel + 1, root, current, bits, acc =>
    let bit := match bits with | [] => false | b :: _ => b
    let next := match current with
      | .internal l r => if bit then r else l
      | .leaf _ => root
    match next with
    | .leaf s =>
      match bits with
      | [] => some (acc ++ [s])
      | _ :: rest => decodeLoop fuel root root rest (acc ++ [s])
    | .internal _ _ => decodeLoop fuel root next bits.tail acc

/-- Rust `HuffmanTree::decode`, run with fuel that is proved sufficient:
one iteration per real bit plus at most `height + 2` flush iterations. -/
def HuffmanTree.decode (t : HuffmanTree) (bits : List Bool) : Option (List Nat) :=
  decodeLoop (bits.length + 2 * t.root.height + 2) t.root t.root bits []

/-- The real-bit phase of `decode`, written by structural recursion on the bit
list: consume each real bit, emitting a symbol and resetting to the root at
each leaf; return the emitted symbols and the final cursor. -/
def decodeReal : HuffmanNode → HuffmanNode → List Bool → List Nat × HuffmanNode
  | _, cur, [] => ([], cur)
  | root, cur, b :: rest =>
    let next := match cur with
      | .internal l r => if b then r else l
      | .leaf _ => root
    match next with
    | .leaf s =>
      let p := decodeReal root root rest
      (s :: p.1, p.2)
    | .internal _ _ => decodeReal root next rest

/-- The leftmost leaf symbol of a node. -/
def leftmostLeaf : HuffmanNode → Nat
  | .leaf s => s
  | .internal l _ => leftmostLeaf l

/-- The single symbol emitted by the virtual-zero flush phase of `decode`,
starting from cursor `cur` with root `root`. -/
def flushSym (root cur : HuffmanNode) : Nat :=
  match cur with
  | .internal l _ => leftmostLeaf l
  | .leaf _ =>
    match root with
    | .leaf s => s
    | .internal l _ => leftmostLeaf l

/-- Rust `bytes_to_bits`' inner loop `for i in (0..8).rev() { bits.push((byte >> i) & 1 == 1) }`. -/
def byteBits (b : Nat) : List Bool :=
  [(b >>> 7) &&& 1 == 1, (b >>> 6) &&& 1 == 1, (b >>> 5) &&& 1 == 1, (b >>> 4) &&& 1 == 1,
   (b >>> 3) &&& 1 == 1, (b >>> 2) &&& 1 == 1, (b >>> 1) &&& 1 == 1, (b >>> 0) &&& 1 == 1]

/-- Rust `bytes_to_bits`: each byte contributes its 8 bits, most significant first. -/
def bytes_to_bits : List Nat → List Bool
  | [] => []
  | b :: rest => byteBits b ++ bytes_to_bits rest

/-- Rust `bits_to_bytes`' per-chunk fold `if bit { byte |= 1 << (7 - i) }`. -/
def packAux : List Bool → Nat → Nat → Nat
  | [], _, byte => byte
  | bit :: rest, i, byte =>
    packAux rest (i + 1) (if bit then byte ||| (1 <<< (7 - i)) else byte)

/-- The `bits.chunks(8)` loop of `bits_to_bytes`.  The caller's `assert!`
guarantees a multiple of 8, so the catch-all for a short final chunk is
unreachable at the (guarded) call site. -/
def bitsChunks : List Bool → List Nat
  | b0 :: b1 :: b2 :: b3 :: b4 :: b5 :: b6 :: b7 :: rest =>
    packAux [b0, b1, b2, b3, b4, b5, b6, b7] 0 0 :: bitsChunks rest
  | _ => []

/-- Rust `bits_to_bytes`: `assert!(bits.len() % 8 == 0)` (a panic, modelled as
`none`), then pack each chunk of 8 bits MSB-first. -/
def bits_to_bytes (bits : List Bool) : Option (List Nat) :=
  if bits.length % 8 = 0 then some (bitsChunks bits) else none

/-- The leaf path predicate: `IsLeafPath t p s` holds when following `p`
(`false` = left, `true` = right) from `t` ends exactly at a leaf carrying `s`. -/
def IsLeafPath : HuffmanNode → List Bool → Nat → Prop
  | .leaf b, [], s => s = b
  | .leaf _, _ :: _, _ => False
  | .internal l _, false :: p, s => IsLeafPath l p s
  | .internal _ r, true :: p, s => IsLeafPath r p s
  | .internal _ _, [], _ => False

/-! ### Heap bookkeeping: the sift operations permute the array -/

theorem length_siftUpAux (x : HeapNode) :
    ∀ (fuel : Nat) (d : List HeapNode) (pos start : Nat),
      (siftUpAux x d pos start fuel).length = d.length := by
  intro fuel
  induction fuel with
  | zero => intro d pos start; simp [siftUpAux]
  | succ fuel ih =>
    intro d pos start
    simp only [siftUpAux]
    split
    · split
      · simp
      · rw [ih]; simp
    · simp

theorem length_siftDownAux :
    ∀ (fuel : Nat) (d : List HeapNode) (pos endd : Nat),
      (siftDownAux d pos endd fuel).1.length = d.length := by
  intro fuel
  induction fuel with
  | zero => intro d pos endd; simp [siftDownAux]
  | succ fuel ih =>
    intro d pos endd
    simp only [siftDownAux]
    split
    · rw [ih]; simp
    · split <;> simp

/-- Setting a valid index, as a multiset identity: the old entry leaves, the new
one arrives. -/
theorem coe_set_add (l : List HeapNode) (i : Nat) (a : HeapNode) (h : i < l.length) :
    ((l.set i a : List HeapNode) : Multiset HeapNode) + {l[i]} =
      (l : Multiset HeapNode) + {a} := by
  have hperm : List.Perm (l.set i a ++ [l[i]]) (l ++ [a]) := by
    induction l generalizing i with
    | nil => simp at h
    | cons x t ih =>
      cases i with
      | zero =>
        simp only [List.set_cons_zero, List.getElem_cons_zero, List.cons_append]
        exact ((List.perm_append_singleton x (a :: t)).trans (List.Perm.swap a x t)).trans
          ((List.perm_append_singleton a (x :: t)).symm)
      | succ i =>
        simp only [List.set_cons_succ, List.getElem_cons_succ, List.cons_append]
        exact (ih i (by simpa using h)).cons x
  have := Multiset.coe_eq_coe.mpr hperm
  simpa [← Multiset.coe_add] using this

/-- Writing `l[j]` into slot `i` and then `x` into slot `j` has the same
multiset of entries as writing `x` into slot `i` directly. -/
theorem coe_set_swap (d : List HeapNode) (i j : Nat) (x : HeapNode)
    (hi : i < d.length) (hj : j < d.length) (hne : i ≠ j) :
    (((d.set i (d[j])).set j x : List HeapNode) : Multiset HeapNode) =
      ((d.set i x : List HeapNode) : Multiset HeapNode) := by
  have hj' : j < (d.set i (d[j])).length := by simpa using hj
  have h1 := coe_set_add (d.set i (d[j])) j x hj'
  have e1 : (d.set i (d[j]))[j] = d[j] := List.getElem_set_ne hne hj'
  rw [e1] at h1
  have h2 := coe_set_add d i (d[j]) hi
  have h3 := coe_set_add d i x hi
  have key : (((d.set i (d[j])).set j x : List HeapNode) : Multiset HeapNode)
        + ({d[j]} + {d[i]})
      = ((d.set i x : List HeapNode) : Multiset HeapNode) + ({d[j]} + {d[i]}) := by
    calc (((d.set i (d[j])).set j x : List HeapNode) : Multiset HeapNode) + ({d[j]} + {d[i]})
        = ((((d.set i (d[j])).set j x : List HeapNode) : Multiset HeapNode) + {d[j]}) + {d[i]} := by
          rw [add_assoc]
      _ = (((d.set i (d[j]) : List HeapNode) : Multiset HeapNode) + {x}) + {d[i]} := by rw [h1]
      _ = (((d.set i (d[j]) : List HeapNode) : Multiset HeapNode) + {d[i]}) + {x} := by
          rw [add_assoc, add_assoc, add_comm ({x} : Multiset HeapNode)]
      _ = ((d : Multiset HeapNode) + {d[j]}) + {x} := by rw [h2]
      _ = ((d : Multiset HeapNode) + {x}) + {d[j]} := by
          rw [add_assoc, add_assoc, add_comm ({d[j]} : Multiset HeapNode)]
      _ = (((d.set i x : List HeapNode) : Multiset HeapNode) + {d[i]}) + {d[j]} := by rw [h3]
      _ = ((d.set i x : List HeapNode) : Multiset HeapNode) + ({d[j]} + {d[i]}) := by
          rw [add_assoc, add_comm ({d[i]} : Multiset HeapNode)]
  exact add_right_cancel key

/-- `siftUpAux` only permutes: its result has the entries of `d.set pos x`. -/
theorem coe_siftUpAux :
    ∀ (fuel : Nat) (x : HeapNode) (d : List HeapNode) (pos start : Nat), pos < d.length →
      ((siftUpAux x d pos start fuel : List HeapNode) : Multiset HeapNode) =
        ((d.set pos x : List HeapNode) : Multiset HeapNode) := by
  intro fuel
  induction fuel with
  | zero => intro x d pos start _; simp [siftUpAux]
  | succ fuel ih =>
    intro x d pos start hpos
    simp only [siftUpAux]
    split
    · next hstart =>
      split
      · rfl
      · have hparent : (pos - 1) / 2 < pos := by
          have h1 : (pos - 1) / 2 ≤ pos - 1 := Nat.div_le_self _ _
          omega
        have hplen : (pos - 1) / 2 < d.length := lt_trans hparent hpos
        have hg : d.getD ((pos - 1) / 2) dfltHeapNode = d[(pos - 1) / 2] :=
          List.getD_eq_getElem d dfltHeapNode hplen
        rw [hg, ih x (d.set pos (d[(pos - 1) / 2])) ((pos - 1) / 2) start
          (by simpa using hplen)]
        exact coe_set_swap d pos ((pos - 1) / 2) x hpos hplen (Nat.ne_of_gt hparent)
    · rfl

/-- The downward hole moves of `siftDownAux` keep all entries except the one in
the hole, whose final position is returned; filling the hole with any `y` gives
the entries of `d.set pos y`. -/
theorem siftDownAux_spec :
    ∀ (fuel : Nat) (d : List HeapNode) (pos endd : Nat), pos < d.length → endd ≤ d.length →
      (siftDownAux d pos endd fuel).2 < d.length ∧
      ∀ y, (((siftDownAux d pos endd fuel).1.set (siftDownAux d pos endd fuel).2 y :
              List HeapNode) : Multiset HeapNode) =
            ((d.set pos y : List HeapNode) : Multiset HeapNode) := by
  intro fuel
  induction fuel with
  | zero => intro d pos endd hpos _; exact ⟨hpos, fun y => rfl⟩
  | succ fuel ih =>
    intro d pos endd hpos hend
    simp only [siftDownAux]
    split
    · next hchild =>
      set c := if hLe (d.getD (2 * pos + 1) dfltHeapNode) (d.getD (2 * pos + 1 + 1) dfltHeapNode)
               then 2 * pos + 1 + 1 else 2 * pos + 1 with hc
      have hcrange : 2 * pos + 1 ≤ c ∧ c ≤ 2 * pos + 2 := by
        rw [hc]; split <;> omega
      have hclen : c < d.length := by omega
      have hcpos : pos ≠ c := by omega
      have hg : d.getD c dfltHeapNode = d[c] := List.getD_eq_getElem d dfltHeapNode hclen
      rw [hg]
      have hlen2 : (d.set pos (d[c])).length = d.length := by simp
      obtain ⟨h1, h2⟩ := ih (d.set pos (d[c])) c endd (by omega) (by omega)
      refine ⟨by omega, fun y => ?_⟩
      rw [h2 y]
      exact coe_set_swap d pos c y hpos hclen hcpos
    · split
      · next hone =>
        have hclen : 2 * pos + 1 < d.length := by omega
        have hg : d.getD (2 * pos + 1) dfltHeapNode = d[2 * pos + 1] :=
          List.getD_eq_getElem d dfltHeapNode hclen
        rw [hg]
        refine ⟨hclen, fun y => ?_⟩
        exact coe_set_swap d pos (2 * pos + 1) y hpos hclen (by omega)
      · exact ⟨hpos, fun y => rfl⟩

theorem length_siftDownToBottom (d : List HeapNode) (pos : Nat) :
    (siftDownToBottom d pos).length = d.length := by
  simp [siftDownToBottom, length_siftUpAux, length_siftDownAux]

/-- `siftDownToBottom` permutes the array (for a valid hole position). -/
theorem coe_siftDownToBottom (d : List HeapNode) (pos : Nat) (hpos : pos < d.length) :
    ((siftDownToBottom d pos : List HeapNode) : Multiset HeapNode) =
      (d : Multiset HeapNode) := by
  unfold siftDownToBottom
  obtain ⟨h1, h2⟩ := siftDownAux_spec d.length d pos d.length hpos le_rfl
  have hx : d.getD pos dfltHeapNode = d[pos] := List.getD_eq_getElem d dfltHeapNode hpos
  rw [coe_siftUpAux _ _ _ _ _ (by rw [length_siftDownAux]; exact h1), h2, hx]
  have := coe_set_add d pos (d[pos]) hpos
  exact add_right_cancel this

theorem heapPop_isSome (d : List HeapNode) (h : d ≠ []) : ∃ p, heapPop d = some p := by
  cases d with
  | nil => exact absurd rfl h
  | cons x t =>
    simp only [heapPop]
    split <;> exact ⟨_, rfl⟩

/-- `heapPop` returns the entries of the heap: the popped element together with
the remaining (permuted) array, which is one shorter. -/
theorem heapPop_spec (d : List HeapNode) (a : HeapNode) (d' : List HeapNode)
    (h : heapPop d = some (a, d')) :
    (d : Multiset HeapNode) = a ::ₘ (d' : Multiset HeapNode) ∧ d'.length + 1 = d.length := by
  cases d with
  | nil => simp [heapPop] at h
  | cons x t =>
    cases t with
    | nil =>
      simp only [heapPop, List.dropLast_single, List.isEmpty_nil, if_true] at h
      obtain ⟨rfl, rfl⟩ := Prod.mk.injEq .. ▸ Option.some.injEq .. ▸ h
      constructor
      · simp [List.getLastD]
      · simp
    | cons y ys =>
      have hdne : (x :: y :: ys) ≠ [] := by simp
      have hemp : (x :: y :: ys).dropLast.isEmpty = false := rfl
      simp only [heapPop] at h
      rw [if_neg (by simp [hemp])] at h
      simp only [Option.some.injEq, Prod.mk.injEq] at h
      obtain ⟨ha, hd⟩ := h
      have hhead : (x :: y :: ys).dropLast.headD dfltHeapNode = x := rfl
      have h0 : 0 < (x :: y :: ys).dropLast.length := by simp
      have hitem : (x :: y :: ys).getLastD dfltHeapNode = (x :: y :: ys).getLast hdne := by
        simp [List.getLastD_eq_getLast?, List.getLast?_eq_getLast _ hdne]
      have happ : (x :: y :: ys).dropLast ++ [(x :: y :: ys).getLast hdne] = x :: y :: ys :=
        List.dropLast_append_getLast hdne
      have hget0 : ((x :: y :: ys).dropLast)[0] = x := rfl
      have hadd := coe_set_add (x :: y :: ys).dropLast 0
        ((x :: y :: ys).getLastD dfltHeapNode) h0
      rw [hget0] at hadd
      have hcoe : ((siftDownToBottom
            ((x :: y :: ys).dropLast.set 0 ((x :: y :: ys).getLastD dfltHeapNode)) 0 :
            List HeapNode) : Multiset HeapNode)
          = (((x :: y :: ys).dropLast.set 0 ((x :: y :: ys).getLastD dfltHeapNode) :
            List HeapNode) : Multiset HeapNode) :=
        coe_siftDownToBottom _ 0 (by simp)
      have hsplit : ((x :: y :: ys : List HeapNode) : Multiset HeapNode)
          = (((x :: y :: ys).dropLast : List HeapNode) : Multiset HeapNode)
            + {(x :: y :: ys).getLastD dfltHeapNode} := by
        conv_lhs => rw [← happ]
        rw [← hitem, ← Multiset.coe_singleton ((x :: y :: ys).getLastD dfltHeapNode),
          ← Multiset.coe_add]
      constructor
      · rw [hsplit, ← ha, ← hd, hhead, hcoe, ← hadd, add_comm]
        exact Multiset.singleton_add x _
      · rw [← hd, length_siftDownToBottom]
        simp

/-- `heapPush` adds exactly the pushed entry (up to permutation). -/
theorem heapPush_spec (d : List HeapNode) (x : HeapNode) :
    ((heapPush d x : List HeapNode) : Multiset HeapNode) = x ::ₘ (d : Multiset HeapNode) ∧
    (heapPush d x).length = d.length + 1 := by
  constructor
  · unfold heapPush
    rw [coe_siftUpAux _ _ _ _ _ (by simp)]
    have hdx : d.length < (d ++ [x]).length := by simp
    have hx : (d ++ [x])[d.length] = x := by simp
    have hadd := coe_set_add (d ++ [x]) d.length x hdx
    rw [hx] at hadd
    have h2 : (((d ++ [x]).set d.length x : List HeapNode) : Multiset HeapNode)
        = ((d ++ [x] : List HeapNode) : Multiset HeapNode) := add_right_cancel hadd
    rw [h2, Multiset.cons_coe]
    exact Multiset.coe_eq_coe.mpr (List.perm_append_singleton x d)
  · unfold heapPush
    rw [length_siftUpAux]
    simp

/-- The multiset of leaf symbols carried by one heap entry. -/
def nodeLeaves (hn : HeapNode) : Multiset Nat := (hn.node.leafList : Multiset Nat)

/-- The multiset of leaf symbols carried by a whole heap. -/
def heapLeavesM (s : Multiset HeapNode) : Multiset Nat := (s.map nodeLeaves).sum

theorem heapLeavesM_cons (a : HeapNode) (s : Multiset HeapNode) :
    heapLeavesM (a ::ₘ s) = nodeLeaves a + heapLeavesM s := by
  simp [heapLeavesM]

/-- The merge loop of `build` succeeds on a nonempty heap (with fuel at least
the heap size) and returns a root whose leaf multiset is the heap's. -/
theorem buildLoop_spec :
    ∀ (fuel : Nat) (d : List HeapNode), d ≠ [] → d.length ≤ fuel →
      ∃ root, buildLoop fuel d = some root ∧
        (root.leafList : Multiset Nat) = heapLeavesM (d : Multiset HeapNode) := by
  intro fuel
  induction fuel with
  | zero =>
    intro d hne hlen
    exact absurd (List.length_eq_zero.mp (Nat.le_zero.mp hlen)) hne
  | succ fuel ih =>
    intro d hne hlen
    by_cases hbig : 1 < d.length
    · obtain ⟨⟨left, d1⟩, hpop1⟩ := heapPop_isSome d hne
      obtain ⟨hperm1, hlen1⟩ := heapPop_spec d left d1 hpop1
      have hd1ne : d1 ≠ [] := by
        intro hh
        rw [hh] at hlen1
        simp at hlen1
        omega
      obtain ⟨⟨right, d2⟩, hpop2⟩ := heapPop_isSome d1 hd1ne
      obtain ⟨hperm2, hlen2⟩ := heapPop_spec d1 right d2 hpop2
      obtain ⟨hpushm, hpushl⟩ :=
        heapPush_spec d2 ⟨left.freq + right.freq, .internal left.node right.node⟩
      have hnewne : heapPush d2 ⟨left.freq + right.freq, .internal left.node right.node⟩ ≠ [] := by
        intro hh
        rw [hh] at hpushl
        simp at hpushl
      have hnewlen :
          (heapPush d2 ⟨left.freq + right.freq, .internal left.node right.node⟩).length ≤ fuel := by
        omega
      obtain ⟨root, hroot, hleaves⟩ := ih _ hnewne hnewlen
      refine ⟨root, ?_, ?_⟩
      · simp only [buildLoop, if_pos hbig, hpop1, hpop2]
        exact hroot
      · rw [hleaves, hpushm, heapLeavesM_cons, hperm1, hperm2, heapLeavesM_cons, heapLeavesM_cons]
        simp only [nodeLeaves, HuffmanNode.leafList, ← Multiset.coe_add, add_assoc]
    · obtain ⟨⟨a, d'⟩, hpop⟩ := heapPop_isSome d hne
      obtain ⟨hperm, hlenp⟩ := heapPop_spec d a d' hpop
      have hpos : 0 < d.length := List.length_pos.mpr hne
      have hd' : d' = [] := List.length_eq_zero.mp (by omega)
      refine ⟨a.node, ?_, ?_⟩
      · simp only [buildLoop, if_neg hbig, hpop, Option.map_some']
      · rw [hperm, hd', heapLeavesM_cons]
        simp [heapLeavesM, nodeLeaves]

theorem heapInit_length (l : List (Nat × Nat)) :
    ∀ init : List HeapNode,
      (l.foldl (fun d sf => heapPush d ⟨sf.2, .leaf sf.1⟩) init).length
        = init.length + l.length := by
  induction l with
  | nil => intro init; simp
  | cons p rest ih =>
    intro init
    simp only [List.foldl_cons]
    rw [ih, (heapPush_spec init ⟨p.2, .leaf p.1⟩).2]
    simp only [List.length_cons]
    omega

theorem heapInit_leaves (l : List (Nat × Nat)) :
    ∀ init : List HeapNode,
      heapLeavesM ((l.foldl (fun d sf => heapPush d ⟨sf.2, .leaf sf.1⟩) init :
          List HeapNode) : Multiset HeapNode)
        = heapLeavesM (init : Multiset HeapNode) + ((l.map Prod.fst : List Nat) : Multiset Nat) := by
  induction l with
  | nil => intro init; simp
  | cons p rest ih =>
    intro init
    simp only [List.foldl_cons, List.map_cons]
    rw [ih, (heapPush_spec init ⟨p.2, .leaf p.1⟩).1, heapLeavesM_cons, ← Multiset.cons_coe,
      ← Multiset.singleton_add]
    simp only [nodeLeaves, HuffmanNode.leafList, Multiset.coe_singleton]
    abel

/-- `build` on the empty table fails (the `unwrap` of an empty heap). -/
theorem build_empty : HuffmanTree.build [] = none := rfl

/-- `build` succeeds on every nonempty table, its tree's leaf multiset is the
multiset of table symbols, and its codebook is `build_codes` of its root. -/
theorem build_spec (l : List (Nat × Nat)) (hl : l ≠ []) :
    ∃ t, HuffmanTree.build l = some t ∧
      (t.root.leafList : Multiset Nat) = ((l.map Prod.fst : List Nat) : Multiset Nat) ∧
      t.codes = build_codes t.root [] (fun _ => none) := by
  have hlen := heapInit_length l []
  have hne : (l.foldl (fun d sf => heapPush d ⟨sf.2, .leaf sf.1⟩) []) ≠ [] := by
    intro hh
    rw [hh] at hlen
    simp at hlen
    exact hl (List.length_eq_zero.mp hlen.symm)
  obtain ⟨root, hroot, hleaves⟩ :=
    buildLoop_spec (l.length + 1) _ hne (by rw [hlen]; simp)
  refine ⟨⟨root, build_codes root [] (fun _ => none)⟩, ?_, ?_, rfl⟩
  · simp only [HuffmanTree.build]
    rw [hroot]
  · rw [hleaves, heapInit_leaves l []]
    simp [heapLeavesM]

/-! ### Decode: the loop terminates and computes a two-phase result -/

theorem decodeLoop_flush_internal (root : HuffmanNode) :
    ∀ (l r : HuffmanNode) (acc : List Nat) (fuel : Nat),
      (HuffmanNode.internal l r).height ≤ fuel →
      decodeLoop fuel root (.internal l r) [] acc = some (acc ++ [leftmostLeaf l]) := by
  intro l
  induction l with
  | leaf s =>
    intro r acc fuel hfuel
    have h1 : 1 ≤ fuel := le_trans (by simp [HuffmanNode.height]) hfuel
    obtain ⟨f, rfl⟩ : ∃ f, fuel = f + 1 := ⟨fuel - 1, by omega⟩
    rfl
  | internal a b iha _ =>
    intro r acc fuel hfuel
    have h1 : 1 ≤ fuel := le_trans (by simp [HuffmanNode.height]) hfuel
    obtain ⟨f, rfl⟩ : ∃ f, fuel = f + 1 := ⟨fuel - 1, by omega⟩
    have step : decodeLoop (f + 1) root (.internal (.internal a b) r) [] acc
        = decodeLoop f root (.internal a b) [] acc := rfl
    rw [step, iha b acc f ?hh]
    · rfl
    case hh =>
      simp only [HuffmanNode.height] at hfuel ⊢
      have h2 := Nat.le_max_left (max a.height b.height + 1) r.height
      omega

/-- With the bit list exhausted the loop always emits exactly one more symbol,
`flushSym root cur`, and stops. -/
theorem decodeLoop_flush (root cur : HuffmanNode) (acc : List Nat) (fuel : Nat)
    (hfuel : cur.height + root.height + 2 ≤ fuel) :
    decodeLoop fuel root cur [] acc = some (acc ++ [flushSym root cur]) := by
  cases cur with
  | internal l r =>
    exact decodeLoop_flush_internal root l r acc fuel (by omega)
  | leaf s =>
    obtain ⟨f, rfl⟩ : ∃ f, fuel = f + 1 := ⟨fuel - 1, by omega⟩
    cases root with
    | leaf t => rfl
    | internal l r =>
      have step : decodeLoop (f + 1) (.internal l r) (.leaf s) [] acc
          = decodeLoop f (.internal l r) (.internal l r) [] acc := rfl
      rw [step]
      exact decodeLoop_flush_internal _ l r acc f
        (by simp only [HuffmanNode.height] at hfuel ⊢; omega)

/-- The loop, with enough fuel, equals the structural two-phase decode: the
real-bit phase `decodeReal` followed by one flushed symbol. -/
theorem decodeLoop_eq_decodeReal :
    ∀ (bits : List Bool) (root cur : HuffmanNode) (acc : List Nat) (fuel : Nat),
      bits.length + max cur.height root.height + root.height + 2 ≤ fuel →
      decodeLoop fuel root cur bits acc =
        some (acc ++ (decodeReal root cur bits).1
          ++ [flushSym root (decodeReal root cur bits).2]) := by
  intro bits
  induction bits with
  | nil =>
    intro root cur acc fuel hfuel
    have hm := Nat.le_max_left cur.height root.height
    rw [show decodeReal root cur [] = ([], cur) from rfl,
      decodeLoop_flush root cur acc fuel (by omega)]
    simp
  | cons b rest ih =>
    intro root cur acc fuel hfuel
    obtain ⟨f, rfl⟩ : ∃ f, fuel = f + 1 := ⟨fuel - 1, by omega⟩
    cases cur with
    | internal l r =>
      have hmax : max (if b then r else l).height (HuffmanNode.internal l r).height
          = (HuffmanNode.internal l r).height := by
        simp only [HuffmanNode.height]
        cases b <;> simp <;> omega
      have hnh : (if b then r else l).height ≤ (HuffmanNode.internal l r).height := by
        rw [← hmax]
        exact Nat.le_max_left ..
      cases hn : (if b then r else l) with
      | leaf s =>
        have step : decodeLoop (f + 1) root (.internal l r) (b :: rest) acc
            = decodeLoop f root root rest (acc ++ [s]) := by
          simp only [decodeLoop, hn]
        have stepR : decodeReal root (.internal l r) (b :: rest)
            = (s :: (decodeReal root root rest).1, (decodeReal root root rest).2) := by
          simp only [decodeReal, hn]
        have hmm := Nat.le_max_right (HuffmanNode.internal l r).height root.height
        rw [step, stepR, ih root root (acc ++ [s]) f (by rw [Nat.max_self]; simp at hfuel; omega)]
        simp
      | internal nl nr =>
        have step : decodeLoop (f + 1) root (.internal l r) (b :: rest) acc
            = decodeLoop f root (.internal nl nr) rest acc := by
          simp only [decodeLoop, hn, List.tail_cons]
        have stepR : decodeReal root (.internal l r) (b :: rest)
            = decodeReal root (.internal nl nr) rest := by
          simp only [decodeReal, hn]
        rw [hn] at hnh
        have hmono : max (HuffmanNode.internal nl nr).height root.height
            ≤ max (HuffmanNode.internal l r).height root.height :=
          max_le_max hnh le_rfl
        rw [step, stepR, ih root (.internal nl nr) acc f (by simp at hfuel; omega)]
    | leaf s0 =>
      cases root with
      | leaf t =>
        have step : decodeLoop (f + 1) (.leaf t) (.leaf s0) (b :: rest) acc
            = decodeLoop f (.leaf t) (.leaf t) rest (acc ++ [t]) := rfl
        have stepR : decodeReal (.leaf t) (.leaf s0) (b :: rest)
            = (t :: (decodeReal (.leaf t) (.leaf t) rest).1,
               (decodeReal (.leaf t) (.leaf t) rest).2) := rfl
        rw [step, stepR, ih (.leaf t) (.leaf t) (acc ++ [t]) f
          (by simp only [HuffmanNode.height, Nat.max_self] at hfuel ⊢; simp at hfuel; omega)]
        simp
      | internal l r =>
        have step : decodeLoop (f + 1) (.internal l r) (.leaf s0) (b :: rest) acc
            = decodeLoop f (.internal l r) (.internal l r) rest acc := rfl
        have stepR : decodeReal (.internal l r) (.leaf s0) (b :: rest)
            = decodeReal (.internal l r) (.internal l r) rest := rfl
        rw [step, stepR, ih (.internal l r) (.internal l r) acc f ?hh]
        case hh =>
          simp only [HuffmanNode.height, Nat.max_self] at hfuel ⊢
          simp at hfuel
          omega

/-- `HuffmanTree.decode`'s fuel always suffices: the result is `some` of the
real-bit phase followed by exactly one flushed symbol. -/
theorem decode_eq (t : HuffmanTree) (bits : List Bool) :
    t.decode bits = some ((decodeReal t.root t.root bits).1
      ++ [flushSym t.root (decodeReal t.root t.root bits).2]) := by
  unfold HuffmanTree.decode
  rw [decodeLoop_eq_decodeReal bits t.root t.root [] _ (by rw [Nat.max_self]; omega)]
  simp

/-! ### Codebook: every code is a root-to-leaf path, hence the set is prefix-free -/

/-- Any entry produced by `build_codes` is the accumulated path to a leaf (or
was already in the map passed in). -/
theorem build_codes_some :
    ∀ (t : HuffmanNode) (pre : List Bool) (m : Nat → Option (List Bool)) (s : Nat)
      (c : List Bool), build_codes t pre m s = some c →
      (∃ p, IsLeafPath t p s ∧ c = pre ++ p) ∨ m s = some c := by
  intro t
  induction t with
  | leaf b =>
    intro pre m s c h
    simp only [build_codes] at h
    by_cases hs : s = b
    · subst hs
      rw [if_pos rfl] at h
      left
      refine ⟨[], by simp [IsLeafPath], ?_⟩
      rw [← Option.some.inj h]
      simp
    · rw [if_neg hs] at h
      right
      exact h
  | internal l r ihl ihr =>
    intro pre m s c h
    simp only [build_codes] at h
    rcases ihr (pre ++ [true]) _ s c h with ⟨p, hp, hc⟩ | h2
    · left
      refine ⟨true :: p, ?_, ?_⟩
      · exact hp
      · rw [hc, List.append_assoc]
        rfl
    · rcases ihl (pre ++ [false]) m s c h2 with ⟨p, hp, hc⟩ | h3
      · left
        refine ⟨false :: p, ?_, ?_⟩
        · exact hp
        · rw [hc, List.append_assoc]
          rfl
      · right
        exact h3

/-- `build_codes` has an entry exactly for the leaf symbols (and whatever the
incoming map already held). -/
theorem build_codes_isSome :
    ∀ (t : HuffmanNode) (pre : List Bool) (m : Nat → Option (List Bool)) (s : Nat),
      (build_codes t pre m s).isSome ↔ s ∈ t.leafList ∨ (m s).isSome := by
  intro t
  induction t with
  | leaf b =>
    intro pre m s
    simp only [build_codes, HuffmanNode.leafList, List.mem_singleton]
    by_cases hs : s = b <;> simp [hs]
  | internal l r ihl ihr =>
    intro pre m s
    simp only [build_codes, HuffmanNode.leafList, List.mem_append]
    rw [ihr, ihl]
    tauto

/-- A leaf path that is a prefix of another leaf path equals it (a leaf has no
strict descendants). -/
theorem leafPath_prefix_eq :
    ∀ (t : HuffmanNode) (p1 p2 : List Bool) (s1 s2 : Nat),
      IsLeafPath t p1 s1 → IsLeafPath t p2 s2 → p1 <+: p2 → p1 = p2 := by
  intro t
  induction t with
  | leaf b =>
    intro p1 p2 s1 s2 h1 h2 _
    cases p1 with
    | nil =>
      cases p2 with
      | nil => rfl
      | cons y q2 => simp [IsLeafPath] at h2
    | cons x q1 => simp [IsLeafPath] at h1
  | internal l r ihl ihr =>
    intro p1 p2 s1 s2 h1 h2 hpre
    cases p1 with
    | nil => simp [IsLeafPath] at h1
    | cons x q1 =>
      cases p2 with
      | nil => simp at hpre
      | cons y q2 =>
        obtain ⟨rfl, hq⟩ := List.cons_prefix_cons.mp hpre
        cases x with
        | false => rw [ihl q1 q2 s1 s2 h1 h2 hq]
        | true => rw [ihr q1 q2 s1 s2 h1 h2 hq]

/-- A path determines the leaf symbol it reaches. -/
theorem leafPath_inj :
    ∀ (t : HuffmanNode) (p : List Bool) (s1 s2 : Nat),
      IsLeafPath t p s1 → IsLeafPath t p s2 → s1 = s2 := by
  intro t
  induction t with
  | leaf b =>
    intro p s1 s2 h1 h2
    cases p with
    | nil =>
      have e1 : s1 = b := h1
      have e2 : s2 = b := h2
      rw [e1, e2]
    | cons x q => simp [IsLeafPath] at h1
  | internal l r ihl ihr =>
    intro p s1 s2 h1 h2
    cases p with
    | nil => simp [IsLeafPath] at h1
    | cons x q =>
      cases x with
      | false => exact ihl q s1 s2 h1 h2
      | true => exact ihr q s1 s2 h1 h2

/-- Two distinct symbols' codes in a built codebook are never prefix-related. -/
theorem codes_not_prefix (t : HuffmanNode) (s1 s2 : Nat) (c1 c2 : List Bool)
    (h1 : build_codes t [] (fun _ => none) s1 = some c1)
    (h2 : build_codes t [] (fun _ => none) s2 = some c2)
    (hne : s1 ≠ s2) : ¬ c1 <+: c2 := by
  rcases build_codes_some t [] _ s1 c1 h1 with ⟨p1, hp1, hc1⟩ | hcon
  · rcases build_codes_some t [] _ s2 c2 h2 with ⟨p2, hp2, hc2⟩ | hcon
    · intro hpre
      simp only [List.nil_append] at hc1 hc2
      subst hc1
      subst hc2
      have heq := leafPath_prefix_eq t c1 c2 s1 s2 hp1 hp2 hpre
      subst heq
      exact hne (leafPath_inj t c1 s1 s2 hp1 hp2)
    · simp at hcon
  · simp at hcon

/-! ### Encode: silent skipping of unknown symbols -/

/-- `encode` is the flattened sequence of the codes of the *known* symbols, in
input order: a symbol with no entry contributes nothing. -/
theorem encodeFn_eq_filterMap (codes : Nat → Option (List Bool)) :
    ∀ data : List Nat, encodeFn codes data = (data.filterMap codes).flatten := by
  intro data
  induction data with
  | nil => rfl
  | cons b rest ih =>
    rcases h : codes b with _ | c <;>
      simp [encodeFn, h, List.filterMap_cons, ih]

/-- When every symbol is known, `encode` is the concatenation of all the
per-symbol codes. -/
theorem encodeFn_all_known (codes : Nat → Option (List Bool)) :
    ∀ data : List Nat, (∀ s ∈ data, (codes s).isSome) →
      encodeFn codes data = (data.map (fun s => (codes s).getD [])).flatten := by
  intro data
  induction data with
  | nil => intro _; rfl
  | cons b rest ih =>
    intro hall
    have hb : (codes b).isSome := hall b (by simp)
    rcases h : codes b with _ | c
    · rw [h] at hb
      simp at hb
    · simp [encodeFn, h, ih (fun s hs => hall s (by simp [hs]))]

/-! ### Bit packing -/

theorem length_bytes_to_bits :
    ∀ bytes : List Nat, (bytes_to_bits bytes).length = 8 * bytes.length := by
  intro bytes
  induction bytes with
  | nil => rfl
  | cons b rest ih =>
    simp only [bytes_to_bits, byteBits, List.length_append, List.length_cons, ih]
    simp
    omega

set_option maxRecDepth 4096 in
/-- Unpacking one byte below 256 into 8 MSB-first bits and repacking restores it. -/
theorem packAux_byteBits : ∀ b : Nat, b < 256 → packAux (byteBits b) 0 0 = b := by decide

theorem bitsChunks_bytes :
    ∀ bytes : List Nat, (∀ x ∈ bytes, x < 256) →
      bitsChunks (bytes_to_bits bytes) = bytes := by
  intro bytes
  induction bytes with
  | nil => intro _; rfl
  | cons b rest ih =>
    intro h
    have hb : b < 256 := h b (by simp)
    have hstep : bitsChunks (bytes_to_bits (b :: rest))
        = packAux (byteBits b) 0 0 :: bitsChunks (bytes_to_bits rest) := rfl
    rw [hstep, packAux_byteBits b hb, ih (fun x hx => h x (by simp [hx]))]

/-! ### Concrete instances shared by the claims -/

/-- The spec's example table `{a:2, b:1, c:1}` (`a` = 97, `b` = 98, `c` = 99),
in the iteration order under which the real `build` produces exactly the tree
the spec describes (`a ↦ 0`, `b ↦ 10`, `c ↦ 11`). -/
def abcFreqs : List (Nat × Nat) := [(97, 2), (98, 1), (99, 1)]

def abcRoot : HuffmanNode := .internal (.leaf 97) (.internal (.leaf 98) (.leaf 99))

def abcTree : HuffmanTree := ⟨abcRoot, build_codes abcRoot [] (fun _ => none)⟩

theorem build_abc : HuffmanTree.build abcFreqs = some abcTree := rfl

/-! ### The claims -/

/-- C1: `decode` is a total, terminating function: for every tree built from a
nonempty frequency table and every bit sequence (including the empty one) the
decode loop, run with the fuel `HuffmanTree.decode` supplies, terminates with
`some` symbol sequence — it never rejects its input. -/
theorem c1_decode_total (freqs : List (Nat × Nat)) (t : HuffmanTree) (bits : List Bool)
    (hbuild : HuffmanTree.build freqs = some t) :
    ∃ out : List Nat, t.decode bits = some out :=
  ⟨_, decode_eq t bits⟩

theorem c1_decode_total_witness :
    HuffmanTree.build abcFreqs = some abcTree ∧
      ∃ out : List Nat, abcTree.decode [false, false, true, false] = some out :=
  ⟨build_abc, c1_decode_total abcFreqs abcTree [false, false, true, false] build_abc⟩

/-- C10: on a built tree, `decode` of any bit sequence (even the empty one)
returns at least one symbol: the virtual-zero padding always walks to a leaf
and emits its symbol, so the output is never the empty sequence. -/
theorem c10_decode_nonempty (freqs : List (Nat × Nat)) (t : HuffmanTree) (bits : List Bool)
    (hbuild : HuffmanTree.build freqs = some t) :
    ∃ out : List Nat, t.decode bits = some out ∧ out ≠ [] := by
  refine ⟨_, decode_eq t bits, ?_⟩
  simp

theorem c10_decode_nonempty_witness :
    HuffmanTree.build abcFreqs = some abcTree ∧
      ∃ out : List Nat, abcTree.decode [] = some out ∧ out ≠ [] :=
  ⟨build_abc, c10_decode_nonempty abcFreqs abcTree [] build_abc⟩

/-- C4: `build` fails on the empty frequency table (the code's `unwrap` of an
empty heap, modelled as `none`) and succeeds, returning a tree, on every
nonempty table. -/
theorem c4_build_empty_vs_nonempty :
    HuffmanTree.build [] = none ∧
      ∀ freqs : List (Nat × Nat), freqs ≠ [] → ∃ t, HuffmanTree.build freqs = some t := by
  refine ⟨build_empty, fun freqs h => ?_⟩
  obtain ⟨t, ht, _⟩ := build_spec freqs h
  exact ⟨t, ht⟩

theorem c4_build_witness :
    HuffmanTree.build [] = none ∧ ([(120, 5)] : List (Nat × Nat)) ≠ [] ∧
      ∃ t, HuffmanTree.build [(120, 5)] = some t :=
  ⟨c4_build_empty_vs_nonempty.1, by simp,
   c4_build_empty_vs_nonempty.2 [(120, 5)] (by simp)⟩

/-- C7: for every nonempty frequency table, the codebook derived from the
built tree is prefix-free — no symbol's code is a proper prefix of another
symbol's code — and it has exactly one entry per distinct input symbol (an
entry exactly for the symbols of the table). -/
theorem c7_prefix_free (freqs : List (Nat × Nat)) (t : HuffmanTree)
    (hbuild : HuffmanTree.build freqs = some t) :
    (∀ s1 s2 c1 c2, s1 ≠ s2 → t.codes s1 = some c1 → t.codes s2 = some c2 →
        ¬ (c1 <+: c2 ∧ c1 ≠ c2)) ∧
      ∀ s, (t.codes s).isSome ↔ s ∈ freqs.map Prod.fst := by
  have hne : freqs ≠ [] := by
    intro h
    subst h
    rw [build_empty] at hbuild
    exact Option.noConfusion hbuild
  obtain ⟨t', ht', hleaves, hcodes⟩ := build_spec freqs hne
  rw [hbuild] at ht'
  obtain rfl : t = t' := Option.some.inj ht'
  constructor
  · intro s1 s2 c1 c2 hs h1 h2 hcon
    rw [hcodes] at h1 h2
    exact codes_not_prefix t.root s1 s2 c1 c2 h1 h2 hs hcon.1
  · intro s
    have hm : s ∈ t.root.leafList ↔ s ∈ freqs.map Prod.fst := by
      rw [← Multiset.mem_coe, hleaves, Multiset.mem_coe]
    rw [hcodes, build_codes_isSome]
    simp [hm]

theorem c7_prefix_free_witness :
    ((abcTree.codes 97).isSome ↔ 97 ∈ abcFreqs.map Prod.fst) ∧
      ¬ (([false] : List Bool) <+: [true, false] ∧ ([false] : List Bool) ≠ [true, false]) :=
  ⟨(c7_prefix_free abcFreqs abcTree build_abc).2 97,
   (c7_prefix_free abcFreqs abcTree build_abc).1 97 98 [false] [true, false]
     (by decide) rfl rfl⟩

/-- C3 counterexample: `encode` does not fail with `UnknownSymbol` when a
symbol has no codebook entry: for the `abc` codebook (where 100 has no entry)
`encode [97, 100]` returns the partial output `[false]` — the code of 97 —
rather than surfacing any error. -/
theorem c3_encode_counterexample :
    abcTree.codes 100 = none ∧ abcTree.encode [97, 100] = [false] := ⟨rfl, rfl⟩

/-- C3 amended: `encode` never fails; symbols without a codebook entry are
silently skipped.  The output is the concatenation of the codes of the known
symbols in input order, its length is the sum of those codes' lengths, and
when every input symbol has an entry it is the concatenation of all the
per-symbol codes. -/
theorem c3_encode_skips_unknown (t : HuffmanTree) (data : List Nat) :
    t.encode data = (data.filterMap t.codes).flatten ∧
      (t.encode data).length = ((data.filterMap t.codes).map List.length).sum ∧
      ((∀ s ∈ data, (t.codes s).isSome) →
        t.encode data = (data.map (fun s => (t.codes s).getD [])).flatten) := by
  have h1 : t.encode data = (data.filterMap t.codes).flatten :=
    encodeFn_eq_filterMap t.codes data
  refine ⟨h1, ?_, encodeFn_all_known t.codes data⟩
  rw [h1, List.length_flatten]

theorem c3_encode_skips_unknown_witness :
    (∀ s ∈ [97, 98], (abcTree.codes s).isSome) ∧
      abcTree.encode [97, 98] = ([97, 98].map (fun s => (abcTree.codes s).getD [])).flatten :=
  ⟨by decide, (c3_encode_skips_unknown abcTree [97, 98]).2.2 (by decide)⟩

/-- C2 counterexample: on the `{a:2,b:1,c:1}` tree with codes `a ↦ 0`,
`b ↦ 10`, `c ↦ 11`, decoding `[0,0,1,0]` does not return exactly `"aab"`. -/
theorem c2_decode_counterexample :
    (HuffmanTree.build abcFreqs).map (fun t => t.decode [false, false, true, false])
      ≠ some (some [97, 97, 98]) := by decide

/-- C2 amended: the tree and the encoding are as the claim says — `a ↦ 0`,
`b ↦ 10`, `c ↦ 11` and `encode "aab" = [0,0,1,0]` — but `decode [0,0,1,0]`
returns `"aaba"`: the claimed `"aab"` plus one spurious trailing `a`.  Even
though the bits end exactly at a leaf boundary, the loop stops only on an
emission that consumed a virtual bit, so the padding flushes one extra
(leftmost-leaf) symbol. -/
theorem c2_encode_decode_aab :
    HuffmanTree.build abcFreqs = some abcTree ∧
      abcTree.codes 97 = some [false] ∧
      abcTree.codes 98 = some [true, false] ∧
      abcTree.codes 99 = some [true, true] ∧
      abcTree.encode [97, 97, 98] = [false, false, true, false] ∧
      abcTree.decode [false, false, true, false] = some [97, 97, 98, 97] :=
  ⟨build_abc, rfl, rfl, rfl, rfl, rfl⟩

/-- C5: contrary to the claim (and the spec's stated invariant), the code
assigns the symbol of a single-symbol table the *empty* code, not the one-bit
code `[0]`: building `{x:5}` (`x` = 120) yields the entry `120 ↦ []`, of
length 0. -/
theorem c5_single_symbol_empty_code :
    (HuffmanTree.build [(120, 5)]).map (fun t => t.codes 120) = some (some []) ∧
      (HuffmanTree.build [(120, 5)]).map (fun t => (t.codes 120).map List.length)
        = some (some 0) := ⟨rfl, rfl⟩

/-- C6 counterexample: `build` is not independent of the frequency map's
iteration order: the same two-symbol, equal-weight table presented in two
orders (which are permutations of each other) builds two different trees. -/
theorem c6_determinism_counterexample :
    List.Perm [((0 : Nat), (1 : Nat)), (1, 1)] [(1, 1), (0, 1)] ∧
      buildRoot [(0, 1), (1, 1)] ≠ buildRoot [(1, 1), (0, 1)] :=
  ⟨List.Perm.swap _ _ _, by decide⟩

/-- C6 amended: `build` is deterministic only given the iteration sequence;
equal weights are tied by heap insertion order, not by symbol value: for any
two symbols of equal weight, whichever was inserted first becomes the left
child, whatever the symbol values are. -/
theorem c6_tie_by_insertion_order (s1 s2 f : Nat) :
    buildRoot [(s1, f), (s2, f)] = some (.internal (.leaf s1) (.leaf s2)) := by
  have h2 : heapPush [⟨f, .leaf s1⟩] ⟨f, .leaf s2⟩ = [⟨f, .leaf s1⟩, ⟨f, .leaf s2⟩] := by
    simp [heapPush, siftUpAux, hLe]
  have h3 : buildLoop 3 [⟨f, .leaf s1⟩, ⟨f, .leaf s2⟩]
      = some (.internal (.leaf s1) (.leaf s2)) := rfl
  simp only [buildRoot, HuffmanTree.build, List.foldl_cons, List.foldl_nil, List.length_cons,
    List.length_nil]
  rw [show heapPush [] ⟨f, .leaf s1⟩ = [⟨f, .leaf s1⟩] from rfl, h2, h3]
  rfl

/-- C8: the bit-packing round trip: for every byte buffer (entries in the u8
range), including the empty buffer, `bits_to_bytes (bytes_to_bits b) = b`, and
`bytes_to_bits` emits exactly 8 MSB-first bits per input byte. -/
theorem c8_round_trip (bytes : List Nat) (h : ∀ x ∈ bytes, x < 256) :
    bits_to_bytes (bytes_to_bits bytes) = some bytes ∧
      (bytes_to_bits bytes).length = 8 * bytes.length := by
  refine ⟨?_, length_bytes_to_bits bytes⟩
  rw [bits_to_bytes, if_pos (by rw [length_bytes_to_bits]; omega)]
  rw [bitsChunks_bytes bytes h]

theorem c8_round_trip_witness :
    (∀ x ∈ [0, 170, 255], x < 256) ∧
      bits_to_bytes (bytes_to_bits [0, 170, 255]) = some [0, 170, 255] :=
  ⟨by decide, (c8_round_trip [0, 170, 255] (by decide)).1⟩

/-! ### Heap order: the binary-heap invariant, and pop returns a minimum -/

/-- The min-heap property on frequencies (the program's reversed `Ord` turns
Rust's max-`BinaryHeap` into a min-heap on `freq`): every parent's frequency is
at most its child's. -/
def IsHeap (d : List HeapNode) : Prop :=
  ∀ c, 0 < c → c < d.length →
    (d.getD ((c - 1) / 2) dfltHeapNode).freq ≤ (d.getD c dfltHeapNode).freq

/-- The heap property on every edge not incident to the hole position `pos`. -/
def HeapExcept (d : List HeapNode) (pos : Nat) : Prop :=
  ∀ c, 0 < c → c < d.length → c ≠ pos → (c - 1) / 2 ≠ pos →
    (d.getD ((c - 1) / 2) dfltHeapNode).freq ≤ (d.getD c dfltHeapNode).freq

theorem getD_set_ne (d : List HeapNode) (i c : Nat) (x : HeapNode) (h : c ≠ i) :
    (d.set i x).getD c dfltHeapNode = d.getD c dfltHeapNode := by
  rw [List.getD_eq_getElem?_getD, List.getD_eq_getElem?_getD, List.getElem?_set_ne (Ne.symm h)]

theorem getD_set_self (d : List HeapNode) (i : Nat) (x : HeapNode) (h : i < d.length) :
    (d.set i x).getD i dfltHeapNode = x := by
  rw [List.getD_eq_getElem?_getD, List.getElem?_set_self (by simpa using h)]
  rfl

theorem getD_append (d e : List HeapNode) (c : Nat) (h : c < d.length) :
    (d ++ e).getD c dfltHeapNode = d.getD c dfltHeapNode := by
  rw [List.getD_eq_getElem?_getD, List.getD_eq_getElem?_getD, List.getElem?_append_left h]

theorem getD_dropLast (d : List HeapNode) (c : Nat) (h : c < d.length - 1) :
    d.dropLast.getD c dfltHeapNode = d.getD c dfltHeapNode := by
  rw [List.getD_eq_getElem?_getD, List.getD_eq_getElem?_getD]
  rw [List.getElem?_eq_getElem (by simp; omega), List.getElem?_eq_getElem (by omega)]
  simp [List.getElem_dropLast]

/-- Writing `x` into the hole is legitimate whenever every non-hole edge holds,
`x` dominates (as a parent) the hole's children, and the hole's parent
dominates `x`. -/
theorem set_isHeap (x : HeapNode) (d : List HeapNode) (pos : Nat)
    (hpos : pos < d.length)
    (hexc : HeapExcept d pos)
    (hchild : ∀ c, 0 < c → c < d.length → (c - 1) / 2 = pos →
      x.freq ≤ (d.getD c dfltHeapNode).freq)
    (hparent : 0 < pos → (d.getD ((pos - 1) / 2) dfltHeapNode).freq ≤ x.freq) :
    IsHeap (d.set pos x) := by
  intro c hc hclen
  have hclen' : c < d.length := by simpa using hclen
  by_cases h1 : c = pos
  · subst h1
    rw [getD_set_self d c x hclen', getD_set_ne d c ((c - 1) / 2) x (by omega)]
    exact hparent hc
  · rw [getD_set_ne d pos c x h1]
    by_cases h2 : (c - 1) / 2 = pos
    · rw [h2, getD_set_self d pos x hpos]
      exact hchild c hc hclen' h2
    · rw [getD_set_ne d pos ((c - 1) / 2) x h2]
      exact hexc c hc hclen' h1 h2

/-- The rising hole of `siftUpAux` restores the full heap property, provided
all non-hole edges hold, the carried element dominates the hole's children, and
the hole's grandparent dominates the hole's children. -/
theorem siftUpAux_isHeap (x : HeapNode) :
    ∀ (fuel : Nat) (d : List HeapNode) (pos : Nat),
      pos < d.length → pos ≤ fuel →
      HeapExcept d pos →
      (∀ c, 0 < c → c < d.length → (c - 1) / 2 = pos →
        x.freq ≤ (d.getD c dfltHeapNode).freq) →
      (0 < pos → ∀ c, 0 < c → c < d.length → (c - 1) / 2 = pos →
        (d.getD ((pos - 1) / 2) dfltHeapNode).freq ≤ (d.getD c dfltHeapNode).freq) →
      IsHeap (siftUpAux x d pos 0 fuel) := by
  intro fuel
  induction fuel with
  | zero =>
    intro d pos hpos hfuel hexc hchild _
    have hp0 : pos = 0 := Nat.le_zero.mp hfuel
    subst hp0
    exact set_isHeap x d 0 hpos hexc hchild (by omega)
  | succ fuel ih =>
    intro d pos hpos hfuel hexc hchild hgp
    simp only [siftUpAux]
    split
    · next hstart =>
      set parent := (pos - 1) / 2 with hparentdef
      have hparent_lt : parent < pos := by omega
      have hparent_len : parent < d.length := lt_trans hparent_lt hpos
      split
      · next hle =>
        have hple : (d.getD parent dfltHeapNode).freq ≤ x.freq := by
          simpa [hLe, decide_eq_true_eq] using hle
        exact set_isHeap x d pos hpos hexc hchild (fun _ => hple)
      · next hnle =>
        have hplt : x.freq < (d.getD parent dfltHeapNode).freq := by
          simp only [hLe, decide_eq_true_eq] at hnle
          omega
        apply ih (d.set pos (d.getD parent dfltHeapNode)) parent (by simpa using hparent_len)
          (by omega)
        · -- non-hole edges of the moved array, hole now at `parent`
          intro c hc hclen hcne hcpne
          have hclen' : c < d.length := by simpa using hclen
          by_cases h1 : c = pos
          · exact absurd (h1 ▸ rfl : (c - 1) / 2 = parent) hcpne
          · rw [getD_set_ne d pos c _ h1]
            by_cases h2 : (c - 1) / 2 = pos
            · rw [h2, getD_set_self d pos _ hpos]
              exact hgp (by omega) c hc hclen' h2
            · rw [getD_set_ne d pos ((c - 1) / 2) _ h2]
              exact hexc c hc hclen' h1 h2
        · -- `x` dominates the children of `parent` in the moved array
          intro c hc hclen hcp
          have hclen' : c < d.length := by simpa using hclen
          by_cases h1 : c = pos
          · subst h1
            rw [getD_set_self d c _ hpos]
            omega
          · rw [getD_set_ne d pos c _ h1]
            have := hexc c hc hclen' h1 (by omega)
            rw [hcp] at this
            omega
        · -- the grandparent dominates the children of `parent`
          intro hppos c hc hclen hcp
          have hclen' : c < d.length := by simpa using hclen
          have hppne : (parent - 1) / 2 ≠ pos := by omega
          rw [getD_set_ne d pos ((parent - 1) / 2) _ hppne]
          have hedge_parent : (d.getD ((parent - 1) / 2) dfltHeapNode).freq
              ≤ (d.getD parent dfltHeapNode).freq :=
            hexc parent hppos hparent_len (by omega) hppne
          by_cases h1 : c = pos
          · subst h1
            rw [getD_set_self d c _ hpos]
            exact hedge_parent
          · rw [getD_set_ne d pos c _ h1]
            have hedge_c : (d.getD parent dfltHeapNode).freq ≤ (d.getD c dfltHeapNode).freq := by
              have := hexc c hc hclen' h1 (by omega)
              rw [hcp] at this
              exact this
            exact le_trans hedge_parent hedge_c
    · next hstart =>
      have hp0 : pos = 0 := by omega
      subst hp0
      exact set_isHeap x d 0 hpos hexc hchild (by omega)

/-- The descending hole of `siftDownAux` keeps all non-hole edges valid and,
with enough fuel, stops at a childless position; throughout, the hole's parent
dominates the hole's children. -/
theorem siftDownAux_heapExcept :
    ∀ (fuel : Nat) (d : List HeapNode) (pos endd : Nat),
      endd = d.length → pos < d.length → d.length ≤ pos + fuel →
      HeapExcept d pos →
      (0 < pos → ∀ c, 0 < c → c < d.length → (c - 1) / 2 = pos →
        (d.getD ((pos - 1) / 2) dfltHeapNode).freq ≤ (d.getD c dfltHeapNode).freq) →
      HeapExcept (siftDownAux d pos endd fuel).1 (siftDownAux d pos endd fuel).2 ∧
      (∀ c, 0 < c → c < (siftDownAux d pos endd fuel).1.length →
        (c - 1) / 2 ≠ (siftDownAux d pos endd fuel).2) := by
  intro fuel
  induction fuel with
  | zero =>
    intro d pos endd hend hpos hfuel _ _
    omega
  | succ fuel ih =>
    intro d pos endd hend hpos hfuel hexc hbdn
    simp only [siftDownAux]
    split
    · next hboth =>
      set cstar := if hLe (d.getD (2 * pos + 1) dfltHeapNode)
            (d.getD (2 * pos + 1 + 1) dfltHeapNode)
          then 2 * pos + 1 + 1 else 2 * pos + 1 with hcstardef
      clear_value cstar
      have hcrange : cstar = 2 * pos + 1 ∨ cstar = 2 * pos + 1 + 1 := by
        rw [hcstardef]
        split
        · right; rfl
        · left; rfl
      have hclen : cstar < d.length := by omega
      have hcchild : (cstar - 1) / 2 = pos := by omega
      have hsiball : ∀ c, 0 < c → (c - 1) / 2 = pos → c < d.length → c ≠ cstar →
          (d.getD cstar dfltHeapNode).freq ≤ (d.getD c dfltHeapNode).freq := by
        intro c hc0 hcp hcl hcne
        have hcis : c = 2 * pos + 1 ∨ c = 2 * pos + 1 + 1 := by omega
        cases hb : hLe (d.getD (2 * pos + 1) dfltHeapNode)
            (d.getD (2 * pos + 1 + 1) dfltHeapNode) with
        | true =>
          have hle : (d.getD (2 * pos + 1 + 1) dfltHeapNode).freq
              ≤ (d.getD (2 * pos + 1) dfltHeapNode).freq := by
            simpa [hLe, decide_eq_true_eq] using hb
          have hcst : cstar = 2 * pos + 1 + 1 := by rw [hcstardef, if_pos hb]
          have hc1 : c = 2 * pos + 1 := by omega
          rw [hcst, hc1]
          exact hle
        | false =>
          have hlt : ¬ ((d.getD (2 * pos + 1 + 1) dfltHeapNode).freq
              ≤ (d.getD (2 * pos + 1) dfltHeapNode).freq) := by
            have hb' := hb
            simp only [hLe, decide_eq_false_iff_not] at hb'
            exact hb'
          have hcst : cstar = 2 * pos + 1 := by
            rw [hcstardef, if_neg (by rw [hb]; simp)]
          have hc2 : c = 2 * pos + 1 + 1 := by omega
          rw [hcst, hc2]
          omega
      apply ih (d.set pos (d.getD cstar dfltHeapNode)) cstar endd (by simpa using hend)
        (by simpa using hclen) (by simp; omega)
      · intro c hc hclen2 hcne hcpne
        have hclen' : c < d.length := by simpa using hclen2
        by_cases h1 : c = pos
        · subst h1
          rw [getD_set_self d c _ hpos, getD_set_ne d c ((c - 1) / 2) _ (by omega)]
          exact hbdn hc cstar (by omega) hclen hcchild
        · rw [getD_set_ne d pos c _ h1]
          by_cases h2 : (c - 1) / 2 = pos
          · rw [h2, getD_set_self d pos _ hpos]
            exact hsiball c hc h2 hclen' hcne
          · rw [getD_set_ne d pos ((c - 1) / 2) _ h2]
            exact hexc c hc hclen' h1 h2
      · intro _ c hc hclen2 hcp
        have hclen' : c < d.length := by simpa using hclen2
        rw [hcchild, getD_set_self d pos _ hpos, getD_set_ne d pos c _ (by omega)]
        have hthis := hexc c hc hclen' (by omega) (by omega)
        rw [hcp] at hthis
        exact hthis
    · next hnboth =>
      split
      · next hone =>
        have hchild_len : 2 * pos + 1 < d.length := by omega
        constructor
        · intro c hc hclen2 hcne hcpne
          have hclen' : c < d.length := by simpa using hclen2
          by_cases h1 : c = pos
          · subst h1
            rw [getD_set_self d c _ hpos, getD_set_ne d c ((c - 1) / 2) _ (by omega)]
            exact hbdn hc (2 * c + 1) (by omega) hchild_len (by omega)
          · rw [getD_set_ne d pos c _ h1]
            by_cases h2 : (c - 1) / 2 = pos
            · exfalso
              omega
            · rw [getD_set_ne d pos ((c - 1) / 2) _ h2]
              exact hexc c hc hclen' h1 h2
        · intro c hc hclen2
          have hclen' : c < d.length := by simpa using hclen2
          show (c - 1) / 2 ≠ 2 * pos + 1
          omega
      · next hnone =>
        refine ⟨hexc, ?_⟩
        intro c hc hclen2
        have hclen' : c < d.length := by simpa using hclen2
        show (c - 1) / 2 ≠ pos
        omega

/-- In a heap the root holds a minimal frequency. -/
theorem isHeap_root_min (d : List HeapNode) (hd : IsHeap d) :
    ∀ i, i < d.length → (d.getD 0 dfltHeapNode).freq ≤ (d.getD i dfltHeapNode).freq := by
  intro i
  induction i using Nat.strong_induction_on with
  | _ i ih =>
    intro hi
    rcases Nat.eq_zero_or_pos i with h0 | hpos
    · subst h0
      exact le_refl _
    · exact le_trans (ih ((i - 1) / 2) (by omega) (by omega)) (hd i hpos hi)

theorem isHeap_min_mem (d : List HeapNode) (hd : IsHeap d) (b : HeapNode) (hb : b ∈ d) :
    (d.getD 0 dfltHeapNode).freq ≤ b.freq := by
  obtain ⟨i, hi, rfl⟩ := List.getElem_of_mem hb
  rw [← List.getD_eq_getElem d dfltHeapNode hi]
  exact isHeap_root_min d hd i hi

theorem isHeap_nil : IsHeap [] := by
  intro c _ hclen
  simp at hclen

/-- `heapPush` preserves the heap invariant. -/
theorem heapPush_isHeap (d : List HeapNode) (x : HeapNode) (hd : IsHeap d) :
    IsHeap (heapPush d x) := by
  apply siftUpAux_isHeap x d.length (d ++ [x]) d.length (by simp) le_rfl
  · intro c hc hclen hcne hcpne
    have hclen' : c < d.length := by
      simp only [List.length_append, List.length_singleton] at hclen
      omega
    rw [getD_append d [x] c hclen', getD_append d [x] ((c - 1) / 2) (by omega)]
    exact hd c hc hclen'
  · intro c hc hclen hcp
    exfalso
    have : c < d.length + 1 := by simpa using hclen
    omega
  · intro _ c hc hclen hcp
    exfalso
    have : c < d.length + 1 := by simpa using hclen
    omega

theorem heapInit_isHeap (l : List (Nat × Nat)) :
    ∀ init : List HeapNode, IsHeap init →
      IsHeap (l.foldl (fun d sf => heapPush d ⟨sf.2, .leaf sf.1⟩) init) := by
  induction l with
  | nil => intro init h; exact h
  | cons p rest ih =>
    intro init h
    exact ih _ (heapPush_isHeap _ _ h)

/-- `heapPop` on a heap returns a globally minimal entry and leaves a heap. -/
theorem heapPop_isHeap_min (d : List HeapNode) (a : HeapNode) (d' : List HeapNode)
    (hd : IsHeap d) (h : heapPop d = some (a, d')) :
    IsHeap d' ∧ ∀ b ∈ d, a.freq ≤ b.freq := by
  cases d with
  | nil => simp [heapPop] at h
  | cons x t =>
    cases t with
    | nil =>
      simp only [heapPop, List.dropLast_single, List.isEmpty_nil, if_true] at h
      obtain ⟨ha, hd'⟩ := Prod.mk.injEq .. ▸ Option.some.injEq .. ▸ h
      constructor
      · rw [← hd']
        exact isHeap_nil
      · intro b hb
        rw [List.mem_singleton] at hb
        subst hb
        rw [← ha]
        exact le_refl _
    | cons y ys =>
      have hdne : (x :: y :: ys) ≠ [] := by simp
      have hemp : (x :: y :: ys).dropLast.isEmpty = false := rfl
      simp only [heapPop] at h
      rw [if_neg (by simp [hemp])] at h
      simp only [Option.some.injEq, Prod.mk.injEq] at h
      obtain ⟨ha, hd'⟩ := h
      have hhead : (x :: y :: ys).dropLast.headD dfltHeapNode = x := rfl
      have hlen1 : (x :: y :: ys).dropLast.length = ys.length + 1 := by simp
      constructor
      · -- the remaining array is again a heap
        rw [← hd']
        set d1 := (x :: y :: ys).dropLast with hd1
        set item := (x :: y :: ys).getLastD dfltHeapNode with hitem
        set d2 := d1.set 0 item with hd2
        have hd2len : d2.length = ys.length + 1 := by
          rw [hd2]
          simp [hd1]
        have hexc2 : HeapExcept d2 0 := by
          intro c hc hclen hcne hcpne
          have hclen' : c < ys.length + 1 := by
            rw [hd2len] at hclen
            exact hclen
          have e1 : d2.getD c dfltHeapNode = (x :: y :: ys).getD c dfltHeapNode := by
            rw [hd2, getD_set_ne d1 0 c item (by omega), hd1,
              getD_dropLast (x :: y :: ys) c (by simp; omega)]
          have e2 : d2.getD ((c - 1) / 2) dfltHeapNode
              = (x :: y :: ys).getD ((c - 1) / 2) dfltHeapNode := by
            rw [hd2, getD_set_ne d1 0 ((c - 1) / 2) item (by omega), hd1,
              getD_dropLast (x :: y :: ys) ((c - 1) / 2) (by simp; omega)]
          rw [e1, e2]
          exact hd c hc (by simp; omega)
        obtain ⟨hexc3, hchildless⟩ :=
          siftDownAux_heapExcept d2.length d2 0 d2.length rfl (by omega) (by omega) hexc2
            (fun h0 => absurd h0 (by omega))
        have hp3 := siftDownAux_spec d2.length d2 0 d2.length (by omega) le_rfl
        have hlen3 : (siftDownAux d2 0 d2.length d2.length).1.length = d2.length :=
          length_siftDownAux ..
        show IsHeap (siftDownToBottom d2 0)
        apply siftUpAux_isHeap _ _ _ _ (by rw [hlen3]; exact hp3.1) le_rfl hexc3
        · intro c hc hclen hcp
          exact absurd hcp (hchildless c hc hclen)
        · intro _ c hc hclen hcp
          exact absurd hcp (hchildless c hc hclen)
      · intro b hb
        have hmin := isHeap_min_mem (x :: y :: ys) hd b hb
        have hget0 : (x :: y :: ys).getD 0 dfltHeapNode = x := rfl
        rw [hget0] at hmin
        rw [← ha, hhead]
        exact hmin

/-! ### The greedy merge as a relation on weighted forests -/

/-- Total weight of a forest of heap entries. -/
def wsum (M : Multiset HeapNode) : Nat := (M.map HeapNode.freq).sum

/-- `Combines M t c` holds when the entries of `M` can be attached as the
frontier of the binary tree `t`, at total cost `c` — each entry's weight times
its depth in `t` (wrapping a subtree adds its whole weight once per level). -/
inductive Combines : Multiset HeapNode → HuffmanNode → Nat → Prop where
  | single (hn : HeapNode) : Combines {hn} hn.node 0
  | node {M1 M2 : Multiset HeapNode} {t1 t2 : HuffmanNode} {c1 c2 : Nat} :
      Combines M1 t1 c1 → Combines M2 t2 c2 →
      Combines (M1 + M2) (.internal t1 t2) (c1 + c2 + wsum M1 + wsum M2)

/-- The greedy loop of `build`: repeatedly replace two minimal-weight entries
by their merge, accumulating the merged weight into the cost. -/
inductive HuffAlg : Multiset HeapNode → HuffmanNode → Nat → Prop where
  | single (hn : HeapNode) : HuffAlg {hn} hn.node 0
  | step {M : Multiset HeapNode} {a b : HeapNode} {root : HuffmanNode} {c : Nat} :
      (∀ x ∈ a ::ₘ b ::ₘ M, a.freq ≤ x.freq) →
      (∀ x ∈ b ::ₘ M, b.freq ≤ x.freq) →
      HuffAlg ((⟨a.freq + b.freq, .internal a.node b.node⟩ : HeapNode) ::ₘ M) root c →
      HuffAlg (a ::ₘ b ::ₘ M) root (c + a.freq + b.freq)

theorem Combines.cast {M M' : Multiset HeapNode} {t : HuffmanNode} {c c' : Nat}
    (h : Combines M t c) (hM : M = M') (hc : c = c') : Combines M' t c' := hM ▸ hc ▸ h

/-- The merge loop of `build`, on a heap, performs exactly the greedy
minimal-pair merges. -/
theorem buildLoop_huffAlg :
    ∀ (fuel : Nat) (d : List HeapNode), IsHeap d → d ≠ [] → d.length ≤ fuel →
      ∀ root, buildLoop fuel d = some root →
        ∃ k, HuffAlg (d : Multiset HeapNode) root k := by
  intro fuel
  induction fuel with
  | zero =>
    intro d _ hne hlen root _
    exact absurd (List.length_eq_zero.mp (Nat.le_zero.mp hlen)) hne
  | succ fuel ih =>
    intro d hd hne hlen root hroot
    by_cases hbig : 1 < d.length
    · obtain ⟨⟨a, d1⟩, hpop1⟩ := heapPop_isSome d hne
      obtain ⟨hperm1, hlen1⟩ := heapPop_spec d a d1 hpop1
      obtain ⟨hheap1, hmin1⟩ := heapPop_isHeap_min d a d1 hd hpop1
      have hd1ne : d1 ≠ [] := by
        intro hh
        rw [hh] at hlen1
        simp at hlen1
        omega
      obtain ⟨⟨b, d2⟩, hpop2⟩ := heapPop_isSome d1 hd1ne
      obtain ⟨hperm2, hlen2⟩ := heapPop_spec d1 b d2 hpop2
      obtain ⟨hheap2, hmin2⟩ := heapPop_isHeap_min d1 b d2 hheap1 hpop2
      have hmerged := heapPush_isHeap d2 ⟨a.freq + b.freq, .internal a.node b.node⟩ hheap2
      obtain ⟨hpushm, hpushl⟩ :=
        heapPush_spec d2 ⟨a.freq + b.freq, .internal a.node b.node⟩
      have hnewne : heapPush d2 ⟨a.freq + b.freq, .internal a.node b.node⟩ ≠ [] := by
        intro hh
        rw [hh] at hpushl
        simp at hpushl
      have hnewlen :
          (heapPush d2 ⟨a.freq + b.freq, .internal a.node b.node⟩).length ≤ fuel := by
        omega
      have hstep : buildLoop (fuel + 1) d
          = buildLoop fuel (heapPush d2 ⟨a.freq + b.freq, .internal a.node b.node⟩) := by
        simp only [buildLoop, if_pos hbig, hpop1, hpop2]
      rw [hstep] at hroot
      obtain ⟨k, hk⟩ := ih _ hmerged hnewne hnewlen root hroot
      rw [hpushm] at hk
      refine ⟨k + a.freq + b.freq, ?_⟩
      have hcons : (d : Multiset HeapNode) = a ::ₘ b ::ₘ (d2 : Multiset HeapNode) := by
        rw [hperm1, hperm2]
      rw [hcons]
      apply HuffAlg.step _ _ hk
      · intro v hv
        exact hmin1 v (Multiset.mem_coe.mp (by rw [hcons]; exact hv))
      · intro v hv
        exact hmin2 v (Multiset.mem_coe.mp (by rw [hperm2]; exact hv))
    · have hpos : 0 < d.length := List.length_pos.mpr hne
      have hone : d.length = 1 := by omega
      obtain ⟨p, rfl⟩ : ∃ p, d = [p] := by
        cases d with
        | nil => simp at hone
        | cons x t =>
          cases t with
          | nil => exact ⟨x, rfl⟩
          | cons y ys => simp at hone
      have hpop : heapPop [p] = some (p, []) := rfl
      have hroot2 : root = p.node := by
        simp only [buildLoop, if_neg hbig, hpop, Option.map_some', Option.some.injEq] at hroot
        exact hroot.symm
      refine ⟨0, ?_⟩
      rw [show (([p] : List HeapNode) : Multiset HeapNode) = {p} from rfl, hroot2]
      exact HuffAlg.single p

/-! ### Depth profiles: combine-tree frontiers with per-entry depths -/

/-- One level deeper. -/
def dp (v : HeapNode × Nat) : HeapNode × Nat := (v.1, v.2 + 1)

/-- Depth profiles of combine-trees.  Payloads are arbitrary; only the
multiset of depths reflects a tree shape. -/
inductive Prof : Multiset (HeapNode × Nat) → Prop where
  | single (hn : HeapNode) : Prof {(hn, 0)}
  | node {P1 P2 : Multiset (HeapNode × Nat)} :
      Prof P1 → Prof P2 → Prof (P1.map dp + P2.map dp)

/-- Cost of a profile: weight times depth, summed. -/
def pcost (P : Multiset (HeapNode × Nat)) : Nat :=
  (P.map (fun v => v.1.freq * v.2)).sum

theorem pcost_cons (v : HeapNode × Nat) (P : Multiset (HeapNode × Nat)) :
    pcost (v ::ₘ P) = v.1.freq * v.2 + pcost P := by
  simp [pcost]

theorem pcost_map_dp (P : Multiset (HeapNode × Nat)) :
    pcost (P.map dp) = pcost P + wsum (P.map Prod.fst) := by
  simp only [pcost, wsum, Multiset.map_map]
  have h1 : ((fun v : HeapNode × Nat => v.1.freq * v.2) ∘ dp)
      = fun v : HeapNode × Nat => v.1.freq * v.2 + v.1.freq := by
    funext v
    simp [dp, Nat.mul_succ]
  rw [h1, Multiset.sum_map_add]
  rfl

theorem add_cons_right (s t : Multiset (HeapNode × Nat)) (a : HeapNode × Nat) :
    s + (a ::ₘ t) = a ::ₘ (s + t) := by
  rw [← Multiset.singleton_add, ← Multiset.singleton_add, add_left_comm]

/-- Any payload of a profile slot may be replaced: the shape constrains only
the depths. -/
theorem prof_replace :
    ∀ {P : Multiset (HeapNode × Nat)}, Prof P →
      ∀ (x : HeapNode) (d : Nat) (P0 : Multiset (HeapNode × Nat)), P = (x, d) ::ₘ P0 →
        ∀ y : HeapNode, Prof ((y, d) ::ₘ P0) := by
  intro P hP
  induction hP with
  | single hn =>
    intro x d P0 hEq y
    have hcard : Multiset.card ({((hn : HeapNode), (0 : Nat))} : Multiset (HeapNode × Nat))
        = Multiset.card ((x, d) ::ₘ P0) := by rw [hEq]
    simp only [Multiset.card_singleton, Multiset.card_cons] at hcard
    have hP0 : P0 = 0 := Multiset.card_eq_zero.mp (by omega)
    rw [hP0] at hEq ⊢
    have hxd : ((hn : HeapNode), (0 : Nat)) = (x, d) := by
      have := hEq
      rw [← Multiset.cons_zero] at this
      exact Multiset.singleton_inj.mp (by simpa using this)
    have hd0 : d = 0 := (Prod.mk.injEq .. ▸ hxd).2.symm
    rw [hd0]
    exact Prof.single y
  | @node P1 P2 hP1 hP2 ih1 ih2 =>
    intro x d P0 hEq y
    have hmem : (x, d) ∈ P1.map dp + P2.map dp := by
      rw [hEq]
      exact Multiset.mem_cons_self _ _
    rcases Multiset.mem_add.mp hmem with hm | hm
    · obtain ⟨v, hv, hdv⟩ := Multiset.mem_map.mp hm
      obtain ⟨P1', hP1'⟩ := Multiset.exists_cons_of_mem hv
      have hv1 : v.1 = x := congrArg Prod.fst hdv
      have hv2 : v.2 + 1 = d := congrArg Prod.snd hdv
      have hrec := ih1 v.1 v.2 P1' (by rw [← hP1']) y
      have hnew := Prof.node hrec hP2
      rw [Multiset.map_cons] at hnew
      have hP0 : P0 = P1'.map dp + P2.map dp := by
        have h2 : (x, d) ::ₘ P0 = (x, d) ::ₘ (P1'.map dp + P2.map dp) := by
          rw [← hEq, hP1', Multiset.map_cons, hdv, Multiset.cons_add]
        exact (Multiset.cons_inj_right _).mp h2
      rw [hP0, ← hv2]
      have hdpy : dp (y, v.2) = (y, v.2 + 1) := rfl
      rw [hdpy, Multiset.cons_add] at hnew
      exact hnew
    · obtain ⟨v, hv, hdv⟩ := Multiset.mem_map.mp hm
      obtain ⟨P2', hP2'⟩ := Multiset.exists_cons_of_mem hv
      have hv2 : v.2 + 1 = d := congrArg Prod.snd hdv
      have hrec := ih2 v.1 v.2 P2' (by rw [← hP2']) y
      have hnew := Prof.node hP1 hrec
      rw [Multiset.map_cons] at hnew
      have hP0 : P0 = P1.map dp + P2'.map dp := by
        have h2 : (x, d) ::ₘ P0 = (x, d) ::ₘ (P1.map dp + P2'.map dp) := by
          rw [← hEq, hP2', Multiset.map_cons, hdv, add_cons_right]
        exact (Multiset.cons_inj_right _).mp h2
      rw [hP0, ← hv2]
      have hdpy : dp (y, v.2) = (y, v.2 + 1) := rfl
      rw [hdpy, add_cons_right] at hnew
      exact hnew

theorem prof_card_pos : ∀ {P : Multiset (HeapNode × Nat)}, Prof P → 0 < Multiset.card P := by
  intro P hP
  induction hP with
  | single hn => simp
  | node _ _ ih1 ih2 => simp only [Multiset.card_add, Multiset.card_map]; omega

theorem prof_card_one {P : Multiset (HeapNode × Nat)} (hP : Prof P)
    (h1 : Multiset.card P = 1) : ∃ hn, P = {((hn : HeapNode), (0 : Nat))} := by
  cases hP with
  | single hn => exact ⟨hn, rfl⟩
  | @node P1 P2 hP1 hP2 =>
    exfalso
    have c1 := prof_card_pos hP1
    have c2 := prof_card_pos hP2
    simp only [Multiset.card_add, Multiset.card_map] at h1
    omega

/-- From a combine-tree to its depth profile. -/
theorem combines_to_prof :
    ∀ {M : Multiset HeapNode} {t : HuffmanNode} {c : Nat}, Combines M t c →
      ∃ P, Prof P ∧ P.map Prod.fst = M ∧ pcost P = c := by
  intro M t c h
  induction h with
  | single hn =>
    exact ⟨{(hn, 0)}, Prof.single hn, by simp, by simp [pcost]⟩
  | @node M1 M2 t1 t2 c1 c2 h1 h2 ih1 ih2 =>
    obtain ⟨P1, hp1, hf1, hc1⟩ := ih1
    obtain ⟨P2, hp2, hf2, hc2⟩ := ih2
    refine ⟨P1.map dp + P2.map dp, Prof.node hp1 hp2, ?_, ?_⟩
    · rw [Multiset.map_add, Multiset.map_map, Multiset.map_map]
      rw [show (Prod.fst ∘ dp) = (Prod.fst : HeapNode × Nat → HeapNode) from rfl, hf1, hf2]
    · rw [show pcost (P1.map dp + P2.map dp) = pcost (P1.map dp) + pcost (P2.map dp) from by
        simp [pcost]]
      rw [pcost_map_dp, pcost_map_dp, hf1, hf2, hc1, hc2]
      omega

/-- From a depth profile back to a combine-tree. -/
theorem prof_to_combines :
    ∀ {P : Multiset (HeapNode × Nat)}, Prof P →
      ∃ t, Combines (P.map Prod.fst) t (pcost P) := by
  intro P hP
  induction hP with
  | single hn =>
    refine ⟨hn.node, ?_⟩
    have h0 : pcost {((hn : HeapNode), (0 : Nat))} = 0 := by simp [pcost]
    have hf : ({((hn : HeapNode), (0 : Nat))} : Multiset (HeapNode × Nat)).map Prod.fst
        = {hn} := by simp
    rw [h0, hf]
    exact Combines.single hn
  | @node P1 P2 hP1 hP2 ih1 ih2 =>
    obtain ⟨t1, h1⟩ := ih1
    obtain ⟨t2, h2⟩ := ih2
    refine ⟨.internal t1 t2, ?_⟩
    have := Combines.node h1 h2
    apply this.cast
    · rw [Multiset.map_add, Multiset.map_map, Multiset.map_map]
      rw [show (Prod.fst ∘ dp) = (Prod.fst : HeapNode × Nat → HeapNode) from rfl]
    · rw [show pcost (P1.map dp + P2.map dp) = pcost (P1.map dp) + pcost (P2.map dp) from by
        simp [pcost]]
      rw [pcost_map_dp, pcost_map_dp]
      omega

/-- Every profile with at least two slots has two sibling slots at maximal
depth, and replacing the pair by one slot a level up (with any payload) is
again a profile. -/
theorem prof_merge_pair :
    ∀ {P : Multiset (HeapNode × Nat)}, Prof P → 2 ≤ Multiset.card P →
      ∃ x y d P', P = (x, d) ::ₘ (y, d) ::ₘ P' ∧ 1 ≤ d ∧
        (∀ v ∈ P, Prod.snd v ≤ d) ∧
        ∀ hn : HeapNode, Prof ((hn, d - 1) ::ₘ P') := by
  intro P hP
  induction hP with
  | single hn =>
    intro h2
    simp at h2
  | @node P1 P2 hP1 hP2 ih1 ih2 =>
    intro _
    by_cases hc1 : 2 ≤ Multiset.card P1
    · obtain ⟨x, y, d1, P1', hdec, hd1, hbound1, hmerge1⟩ := ih1 hc1
      by_cases hc2 : 2 ≤ Multiset.card P2
      · obtain ⟨x2, y2, d2, P2', hdec2, hd2, hbound2, hmerge2⟩ := ih2 hc2
        rcases le_total d2 d1 with hcmp | hcmp
        · refine ⟨x, y, d1 + 1, P1'.map dp + P2.map dp, ?_, by omega, ?_, ?_⟩
          · rw [hdec, Multiset.map_cons, Multiset.map_cons, Multiset.cons_add,
              Multiset.cons_add]
            rfl
          · intro v hv
            rcases Multiset.mem_add.mp hv with h | h
            · obtain ⟨u, hu, rfl⟩ := Multiset.mem_map.mp h
              have := hbound1 u hu
              simp only [dp]
              omega
            · obtain ⟨u, hu, rfl⟩ := Multiset.mem_map.mp h
              have := hbound2 u hu
              simp only [dp]
              omega
          · intro hn
            have hthis := Prof.node (hmerge1 hn) hP2
            rw [Multiset.map_cons, Multiset.cons_add] at hthis
            have hd : d1 - 1 + 1 = d1 := by omega
            have hdpe : dp (hn, d1 - 1) = (hn, d1 - 1 + 1) := rfl
            rw [hdpe, hd] at hthis
            exact hthis
        · refine ⟨x2, y2, d2 + 1, P1.map dp + P2'.map dp, ?_, by omega, ?_, ?_⟩
          · rw [hdec2, Multiset.map_cons, Multiset.map_cons, add_cons_right, add_cons_right]
            rfl
          · intro v hv
            rcases Multiset.mem_add.mp hv with h | h
            · obtain ⟨u, hu, rfl⟩ := Multiset.mem_map.mp h
              have := hbound1 u hu
              simp only [dp]
              omega
            · obtain ⟨u, hu, rfl⟩ := Multiset.mem_map.mp h
              have := hbound2 u hu
              simp only [dp]
              omega
          · intro hn
            have hthis := Prof.node hP1 (hmerge2 hn)
            rw [Multiset.map_cons, add_cons_right] at hthis
            have hd : d2 - 1 + 1 = d2 := by omega
            have hdpe : dp (hn, d2 - 1) = (hn, d2 - 1 + 1) := rfl
            rw [hdpe, hd] at hthis
            exact hthis
      · have hc2' : Multiset.card P2 = 1 := by
          have := prof_card_pos hP2
          omega
        obtain ⟨w, rfl⟩ := prof_card_one hP2 hc2'
        refine ⟨x, y, d1 + 1, P1'.map dp + {((w : HeapNode), (1 : Nat))}, ?_, by omega, ?_, ?_⟩
        · rw [hdec, Multiset.map_cons, Multiset.map_cons, Multiset.cons_add,
            Multiset.cons_add, Multiset.map_singleton]
          rfl
        · intro v hv
          rcases Multiset.mem_add.mp hv with h | h
          · obtain ⟨u, hu, rfl⟩ := Multiset.mem_map.mp h
            have := hbound1 u hu
            simp only [dp]
            omega
          · obtain ⟨u, hu, rfl⟩ := Multiset.mem_map.mp h
            rw [Multiset.mem_singleton] at hu
            subst hu
            simp only [dp]
            omega
        · intro hn
          have hthis := Prof.node (hmerge1 hn) (Prof.single w)
          rw [Multiset.map_cons, Multiset.cons_add, Multiset.map_singleton] at hthis
          have hd : d1 - 1 + 1 = d1 := by omega
          have hdpe : dp (hn, d1 - 1) = (hn, d1 - 1 + 1) := rfl
          rw [hdpe, hd] at hthis
          exact hthis
    · have hc1' : Multiset.card P1 = 1 := by
        have := prof_card_pos hP1
        omega
      obtain ⟨z, rfl⟩ := prof_card_one hP1 hc1'
      by_cases hc2 : 2 ≤ Multiset.card P2
      · obtain ⟨x2, y2, d2, P2', hdec2, hd2, hbound2, hmerge2⟩ := ih2 hc2
        refine ⟨x2, y2, d2 + 1, {((z : HeapNode), (1 : Nat))} + P2'.map dp, ?_, by omega,
          ?_, ?_⟩
        · rw [hdec2, Multiset.map_cons, Multiset.map_cons, add_cons_right, add_cons_right,
            Multiset.map_singleton]
          rfl
        · intro v hv
          rcases Multiset.mem_add.mp hv with h | h
          · obtain ⟨u, hu, rfl⟩ := Multiset.mem_map.mp h
            rw [Multiset.mem_singleton] at hu
            subst hu
            simp only [dp]
            omega
          · obtain ⟨u, hu, rfl⟩ := Multiset.mem_map.mp h
            have := hbound2 u hu
            simp only [dp]
            omega
        · intro hn
          have hthis := Prof.node (Prof.single z) (hmerge2 hn)
          rw [Multiset.map_cons, add_cons_right, Multiset.map_singleton] at hthis
          have hd : d2 - 1 + 1 = d2 := by omega
          have hdpe : dp (hn, d2 - 1) = (hn, d2 - 1 + 1) := rfl
          rw [hdpe, hd] at hthis
          exact hthis
      · have hc2' : Multiset.card P2 = 1 := by
          have := prof_card_pos hP2
          omega
        obtain ⟨w, rfl⟩ := prof_card_one hP2 hc2'
        refine ⟨z, w, 1, 0, ?_, le_refl 1, ?_, ?_⟩
        · rw [Multiset.map_singleton, Multiset.map_singleton]
          rfl
        · intro v hv
          rcases Multiset.mem_add.mp hv with h | h
          · obtain ⟨u, hu, rfl⟩ := Multiset.mem_map.mp h
            rw [Multiset.mem_singleton] at hu
            subst hu
            exact le_refl 1
          · obtain ⟨u, hu, rfl⟩ := Multiset.mem_map.mp h
            rw [Multiset.mem_singleton] at hu
            subst hu
            exact le_refl 1
        · intro hn
          exact Prof.single hn

theorem swap_cost (af xf e d : Nat) (ha : af ≤ xf) (he : e ≤ d) :
    af * d + xf * e ≤ xf * d + af * e := by
  obtain ⟨k, rfl⟩ : ∃ k, d = e + k := ⟨d - e, by omega⟩
  have hm := Nat.mul_le_mul_right k ha
  rw [Nat.mul_add, Nat.mul_add]
  omega

theorem cons_rot3 (u v w : HeapNode × Nat) (s : Multiset (HeapNode × Nat)) :
    u ::ₘ v ::ₘ w ::ₘ s = w ::ₘ u ::ₘ v ::ₘ s := by
  rw [Multiset.cons_swap v w, Multiset.cons_swap u w]

/-- Pull a minimal-weight payload into the first of the two deepest sibling
slots, permuting payloads only: cost does not increase, the payload multiset,
the depth bound and the mergeability of the pair are all preserved. -/
theorem prof_pull_min (P : Multiset (HeapNode × Nat)) (x y : HeapNode) (d : Nat)
    (R : Multiset (HeapNode × Nat)) (a : HeapNode)
    (hP : Prof P) (hdec : P = (x, d) ::ₘ (y, d) ::ₘ R)
    (hbound : ∀ v ∈ P, Prod.snd v ≤ d)
    (hmerge : ∀ hn : HeapNode, Prof ((hn, d - 1) ::ₘ R))
    (hamem : a ∈ P.map Prod.fst)
    (hamin : ∀ z ∈ P.map Prod.fst, a.freq ≤ z.freq) :
    ∃ y1 R1, Prof ((a, d) ::ₘ (y1, d) ::ₘ R1) ∧
      pcost ((a, d) ::ₘ (y1, d) ::ₘ R1) ≤ pcost P ∧
      ((a, d) ::ₘ (y1, d) ::ₘ R1).map Prod.fst = P.map Prod.fst ∧
      (∀ v ∈ R1, Prod.snd v ≤ d) ∧
      (∀ hn : HeapNode, Prof ((hn, d - 1) ::ₘ R1)) := by
  have hamem' : a = x ∨ a = y ∨ a ∈ R.map Prod.fst := by
    rw [hdec, Multiset.map_cons, Multiset.map_cons] at hamem
    rcases Multiset.mem_cons.mp hamem with h | h
    · exact Or.inl h
    · rcases Multiset.mem_cons.mp h with h2 | h2
      · exact Or.inr (Or.inl h2)
      · exact Or.inr (Or.inr h2)
  rcases hamem' with rfl | rfl | hmem
  · refine ⟨y, R, ?_, ?_, ?_, ?_, hmerge⟩
    · rw [← hdec]
      exact hP
    · rw [hdec]
    · rw [hdec]
    · intro v hv
      apply hbound v
      rw [hdec]
      exact Multiset.mem_cons_of_mem (Multiset.mem_cons_of_mem hv)
  · refine ⟨x, R, ?_, ?_, ?_, ?_, hmerge⟩
    · rw [Multiset.cons_swap, ← hdec]
      exact hP
    · rw [hdec, Multiset.cons_swap]
    · rw [hdec, Multiset.cons_swap]
    · intro v hv
      apply hbound v
      rw [hdec]
      exact Multiset.mem_cons_of_mem (Multiset.mem_cons_of_mem hv)
  · obtain ⟨u, hu, hua⟩ := Multiset.mem_map.mp hmem
    obtain ⟨R2, hR2⟩ := Multiset.exists_cons_of_mem hu
    have humem : u ∈ P := by
      rw [hdec, hR2]
      exact Multiset.mem_cons_of_mem (Multiset.mem_cons_of_mem (Multiset.mem_cons_self _ _))
    have hu2d : u.2 ≤ d := hbound u humem
    have hxmem : x ∈ P.map Prod.fst := by
      rw [hdec, Multiset.map_cons]
      exact Multiset.mem_cons_self _ _
    have hax : a.freq ≤ x.freq := hamin x hxmem
    refine ⟨y, (x, u.2) ::ₘ R2, ?_, ?_, ?_, ?_, ?_⟩
    · -- two payload replacements realize the swap
      have hP' : Prof ((x, d) ::ₘ (y, d) ::ₘ u ::ₘ R2) := by
        rw [← hR2, ← hdec]
        exact hP
      have r1 : Prof ((a, d) ::ₘ (y, d) ::ₘ u ::ₘ R2) :=
        prof_replace hP' x d ((y, d) ::ₘ u ::ₘ R2) rfl a
      have r1' : Prof (u ::ₘ (a, d) ::ₘ (y, d) ::ₘ R2) := by
        rw [← cons_rot3]
        exact r1
      have r2 : Prof ((x, u.2) ::ₘ (a, d) ::ₘ (y, d) ::ₘ R2) := by
        have := prof_replace r1' u.1 u.2 ((a, d) ::ₘ (y, d) ::ₘ R2) (by simp) x
        exact this
      rw [cons_rot3, cons_rot3] at r2
      exact r2
    · -- the swap does not increase the cost
      rw [hdec, hR2, pcost_cons, pcost_cons, pcost_cons, pcost_cons, pcost_cons, pcost_cons]
      show a.freq * d + (y.freq * d + (x.freq * u.2 + pcost R2)) ≤
        x.freq * d + (y.freq * d + (u.1.freq * u.2 + pcost R2))
      rw [hua]
      have hsw := swap_cost a.freq x.freq u.2 d hax hu2d
      omega
    · rw [hdec, hR2]
      simp only [Multiset.map_cons]
      rw [hua]
      rw [Multiset.cons_swap y x, Multiset.cons_swap a x, Multiset.cons_swap a y]
    · intro v hv
      rcases Multiset.mem_cons.mp hv with h | h
      · rw [h]
        exact hu2d
      · exact hbound v (by
          rw [hdec, hR2]
          exact Multiset.mem_cons_of_mem (Multiset.mem_cons_of_mem
            (Multiset.mem_cons_of_mem h)))
    · intro hn
      have h0 : Prof ((hn, d - 1) ::ₘ u ::ₘ R2) := by
        rw [← hR2]
        exact hmerge hn
      have h1 : Prof (u ::ₘ (hn, d - 1) ::ₘ R2) := by
        rwa [Multiset.cons_swap] at h0
      have h2 : Prof ((x, u.2) ::ₘ (hn, d - 1) ::ₘ R2) :=
        prof_replace h1 u.1 u.2 ((hn, d - 1) ::ₘ R2) (by simp) x
      rwa [Multiset.cons_swap] at h2

theorem wsum_cons (x : HeapNode) (M : Multiset HeapNode) :
    wsum (x ::ₘ M) = x.freq + wsum M := by
  simp [wsum]

/-- Pull the two minimal-weight payloads into the two deepest sibling slots,
permuting payloads only: the cost does not increase, the payload multiset is
preserved and the pair can still be merged one level up. -/
theorem prof_pull_pair (P : Multiset (HeapNode × Nat)) (a b : HeapNode)
    (M : Multiset HeapNode)
    (hP : Prof P) (h2 : 2 ≤ Multiset.card P)
    (hfst : P.map Prod.fst = a ::ₘ b ::ₘ M)
    (hmina : ∀ z ∈ a ::ₘ b ::ₘ M, a.freq ≤ z.freq)
    (hminb : ∀ z ∈ b ::ₘ M, b.freq ≤ z.freq) :
    ∃ d R, 1 ≤ d ∧ Prof ((a, d) ::ₘ (b, d) ::ₘ R) ∧
      pcost ((a, d) ::ₘ (b, d) ::ₘ R) ≤ pcost P ∧
      R.map Prod.fst = M ∧
      (∀ hn : HeapNode, Prof ((hn, d - 1) ::ₘ R)) := by
  obtain ⟨x, y, d, P', hdec, hd1, hbound, hmerge⟩ := prof_merge_pair hP h2
  have hamem : a ∈ P.map Prod.fst := by
    rw [hfst]
    exact Multiset.mem_cons_self _ _
  have hamin : ∀ z ∈ P.map Prod.fst, a.freq ≤ z.freq := by
    intro z hz
    rw [hfst] at hz
    exact hmina z hz
  obtain ⟨y1, R1, hprof1, hcost1, hfst1, hbound1, hmerge1⟩ :=
    prof_pull_min P x y d P' a hP hdec hbound hmerge hamem hamin
  have h5 : y1 ::ₘ R1.map Prod.fst = b ::ₘ M := by
    have h4 : ((a, d) ::ₘ (y1, d) ::ₘ R1).map Prod.fst = a ::ₘ b ::ₘ M := by
      rw [hfst1, hfst]
    simp only [Multiset.map_cons] at h4
    exact (Multiset.cons_inj_right a).mp h4
  have hby1 : b.freq ≤ y1.freq := by
    apply hminb y1
    rw [← h5]
    exact Multiset.mem_cons_self _ _
  have hbmem : b ∈ y1 ::ₘ R1.map Prod.fst := by
    rw [h5]
    exact Multiset.mem_cons_self _ _
  rcases Multiset.mem_cons.mp hbmem with hby | hbR
  · subst hby
    refine ⟨d, R1, hd1, hprof1, hcost1, (Multiset.cons_inj_right b).mp h5, hmerge1⟩
  · obtain ⟨u, hu, hub⟩ := Multiset.mem_map.mp hbR
    obtain ⟨R2, hR2⟩ := Multiset.exists_cons_of_mem hu
    have hu2d : u.2 ≤ d := by
      apply hbound1 u
      rw [hR2]
      exact Multiset.mem_cons_self _ _
    refine ⟨d, (y1, u.2) ::ₘ R2, hd1, ?_, ?_, ?_, ?_⟩
    · rw [hR2] at hprof1
      rw [Multiset.cons_swap] at hprof1
      have r1 : Prof ((b, d) ::ₘ (a, d) ::ₘ u ::ₘ R2) :=
        prof_replace hprof1 y1 d ((a, d) ::ₘ u ::ₘ R2) rfl b
      rw [cons_rot3] at r1
      have r2 : Prof ((y1, u.2) ::ₘ (b, d) ::ₘ (a, d) ::ₘ R2) :=
        prof_replace r1 u.1 u.2 ((b, d) ::ₘ (a, d) ::ₘ R2) (by simp) y1
      rw [cons_rot3] at r2
      rwa [Multiset.cons_swap ((y1, u.2) : HeapNode × Nat) ((b, d) : HeapNode × Nat) R2] at r2
    · calc pcost ((a, d) ::ₘ (b, d) ::ₘ (y1, u.2) ::ₘ R2)
          ≤ pcost ((a, d) ::ₘ (y1, d) ::ₘ u ::ₘ R2) := by
            rw [pcost_cons, pcost_cons, pcost_cons, pcost_cons, pcost_cons, pcost_cons]
            show a.freq * d + (b.freq * d + (y1.freq * u.2 + pcost R2))
                ≤ a.freq * d + (y1.freq * d + (u.1.freq * u.2 + pcost R2))
            rw [hub]
            have hsw := swap_cost b.freq y1.freq u.2 d hby1 hu2d
            omega
        _ = pcost ((a, d) ::ₘ (y1, d) ::ₘ R1) := by rw [hR2]
        _ ≤ pcost P := hcost1
    · have h6 : (b : HeapNode) ::ₘ y1 ::ₘ R2.map Prod.fst = b ::ₘ M := by
        rw [← Multiset.cons_swap]
        rw [hR2, Multiset.map_cons, hub] at h5
        exact h5
      have h7 := (Multiset.cons_inj_right b).mp h6
      rw [Multiset.map_cons]
      exact h7
    · intro hn
      have h0 : Prof ((hn, d - 1) ::ₘ u ::ₘ R2) := by
        rw [← hR2]
        exact hmerge1 hn
      rw [Multiset.cons_swap] at h0
      have h1 : Prof ((y1, u.2) ::ₘ (hn, d - 1) ::ₘ R2) :=
        prof_replace h0 u.1 u.2 ((hn, d - 1) ::ₘ R2) (by simp) y1
      rwa [Multiset.cons_swap] at h1

/-- The greedy merge is optimal among all combine-trees over the same entry
multiset: its cost is a lower bound. -/
theorem huffAlg_combines_min :
    ∀ {M : Multiset HeapNode} {root : HuffmanNode} {c : Nat}, HuffAlg M root c →
      ∀ {t : HuffmanNode} {k : Nat}, Combines M t k → c ≤ k := by
  intro M root c h
  induction h with
  | single hn =>
    intro t k _
    exact Nat.zero_le k
  | @step M a b root c hmina hminb hrec ih =>
    intro t k hcomb
    obtain ⟨P, hP, hfst, hpc⟩ := combines_to_prof hcomb
    have h2 : 2 ≤ Multiset.card P := by
      have hc := congrArg Multiset.card hfst
      simp only [Multiset.card_map, Multiset.card_cons] at hc
      omega
    obtain ⟨d, R, hd1, hprofQ, hcostQ, hfstR, hmergeR⟩ :=
      prof_pull_pair P a b M hP h2 hfst hmina hminb
    have hm := hmergeR ⟨a.freq + b.freq, .internal a.node b.node⟩
    obtain ⟨t2, hcomb2⟩ := prof_to_combines hm
    have hfst2 : (((⟨a.freq + b.freq, .internal a.node b.node⟩ : HeapNode), d - 1) ::ₘ R).map
        Prod.fst = (⟨a.freq + b.freq, .internal a.node b.node⟩ : HeapNode) ::ₘ M := by
      rw [Multiset.map_cons, hfstR]
    rw [hfst2] at hcomb2
    have hle := ih hcomb2
    have hkey : pcost (((⟨a.freq + b.freq, .internal a.node b.node⟩ : HeapNode), d - 1) ::ₘ R)
        + (a.freq + b.freq) = pcost ((a, d) ::ₘ (b, d) ::ₘ R) := by
      rw [pcost_cons, pcost_cons, pcost_cons]
      show (a.freq + b.freq) * (d - 1) + pcost R + (a.freq + b.freq)
          = a.freq * d + (b.freq * d + pcost R)
      obtain ⟨e, rfl⟩ : ∃ e, d = e + 1 := ⟨d - 1, by omega⟩
      simp only [Nat.add_sub_cancel]
      ring
    have hfin : pcost ((a, d) ::ₘ (b, d) ::ₘ R) ≤ k := le_trans hcostQ (le_of_eq hpc)
    omega

/-- A combine-tree whose frontier holds the merged pair can be deepened one
level: detach the pair below the merged slot, at the pair's extra cost. -/
theorem combines_expand :
    ∀ {M : Multiset HeapNode} {t : HuffmanNode} {k : Nat}, Combines M t k →
      ∀ (a b : HeapNode) (M' : Multiset HeapNode),
        M = (⟨a.freq + b.freq, .internal a.node b.node⟩ : HeapNode) ::ₘ M' →
        Combines (a ::ₘ b ::ₘ M') t (k + a.freq + b.freq) := by
  intro M t k h
  induction h with
  | single hn =>
    intro a b M' hEq
    have hcard := congrArg Multiset.card hEq
    simp only [Multiset.card_singleton, Multiset.card_cons] at hcard
    have hM' : M' = 0 := Multiset.card_eq_zero.mp (by omega)
    rw [hM'] at hEq
    have hhn : hn = (⟨a.freq + b.freq, .internal a.node b.node⟩ : HeapNode) := by
      rw [Multiset.cons_zero] at hEq
      exact Multiset.singleton_inj.mp hEq
    have hnode : hn.node = .internal a.node b.node := by rw [hhn]
    rw [hM', hnode]
    have hc := Combines.node (Combines.single a) (Combines.single b)
    apply hc.cast
    · rfl
    · simp [wsum]
  | @node M1 M2 t1 t2 c1 c2 h1 h2 ih1 ih2 =>
    intro a b M' hEq
    have hmem : (⟨a.freq + b.freq, .internal a.node b.node⟩ : HeapNode) ∈ M1 + M2 := by
      rw [hEq]
      exact Multiset.mem_cons_self _ _
    rcases Multiset.mem_add.mp hmem with hm | hm
    · obtain ⟨M1', hM1'⟩ := Multiset.exists_cons_of_mem hm
      have hM' : M' = M1' + M2 := by
        apply (Multiset.cons_inj_right
          ((⟨a.freq + b.freq, .internal a.node b.node⟩ : HeapNode))).mp
        rw [← hEq, hM1', Multiset.cons_add]
      have hrec := ih1 a b M1' hM1'
      have hc := Combines.node hrec h2
      apply hc.cast
      · rw [hM', Multiset.cons_add, Multiset.cons_add]
      · rw [hM1', wsum_cons, wsum_cons, wsum_cons]
        show c1 + a.freq + b.freq + c2 + (a.freq + (b.freq + wsum M1')) + wsum M2
            = c1 + c2 + (a.freq + b.freq + wsum M1') + wsum M2 + a.freq + b.freq
        ring
    · obtain ⟨M2', hM2'⟩ := Multiset.exists_cons_of_mem hm
      have hM' : M' = M1 + M2' := by
        apply (Multiset.cons_inj_right
          ((⟨a.freq + b.freq, .internal a.node b.node⟩ : HeapNode))).mp
        rw [← hEq, hM2']
        rw [← Multiset.singleton_add, ← Multiset.singleton_add, add_left_comm]
      have hrec := ih2 a b M2' hM2'
      have hc := Combines.node h1 hrec
      apply hc.cast
      · rw [hM']
        rw [← Multiset.singleton_add, ← Multiset.singleton_add, ← Multiset.singleton_add,
          ← Multiset.singleton_add]
        abel
      · rw [hM2', wsum_cons, wsum_cons, wsum_cons]
        show c1 + (c2 + a.freq + b.freq) + wsum M1 + (a.freq + (b.freq + wsum M2'))
            = c1 + c2 + wsum M1 + (a.freq + b.freq + wsum M2') + a.freq + b.freq
        ring


/-- The greedy merge relation is itself a combine-tree derivation: the tree
`build` produces carries its own cost. -/
theorem huffAlg_to_combines :
    ∀ {M : Multiset HeapNode} {t : HuffmanNode} {k : Nat}, HuffAlg M t k →
      Combines M t k := by
  intro M t k h
  induction h with
  | single hn => exact Combines.single hn
  | @step M a b root c hmina hminb hrec ih =>
    exact combines_expand ih a b M rfl

/-- The heap entry `build` makes for a table row: the frequency weighting a
fresh leaf. -/
def leafEntry (p : Nat × Nat) : HeapNode := ⟨p.2, .leaf p.1⟩

/-- The initial heap of `build` holds exactly one `leafEntry` per table row. -/
theorem heapInit_multiset (l : List (Nat × Nat)) :
    ∀ init : List HeapNode,
      ((l.foldl (fun d sf => heapPush d ⟨sf.2, .leaf sf.1⟩) init : List HeapNode) :
          Multiset HeapNode)
        = (init : Multiset HeapNode) + ((l.map leafEntry : List HeapNode) : Multiset HeapNode) := by
  induction l with
  | nil => intro init; simp
  | cons p rest ih =>
    intro init
    simp only [List.foldl_cons, List.map_cons]
    rw [ih, (heapPush_spec init ⟨p.2, .leaf p.1⟩).1, ← Multiset.cons_coe]
    simp only [leafEntry, ← Multiset.singleton_add]
    abel

/-- A successful `build` runs the greedy merge relation on the table's
`leafEntry` multiset. -/
theorem build_huffAlg (freqs : List (Nat × Nat)) (t : HuffmanTree)
    (hb : HuffmanTree.build freqs = some t) :
    ∃ k, HuffAlg ((freqs.map leafEntry : List HeapNode) : Multiset HeapNode) t.root k := by
  have hb' := hb
  simp only [HuffmanTree.build] at hb'
  cases hloop : buildLoop (freqs.length + 1)
      (freqs.foldl (fun d sf => heapPush d ⟨sf.2, .leaf sf.1⟩) []) with
  | none =>
    rw [hloop] at hb'
    exact Option.noConfusion hb'
  | some root =>
    rw [hloop] at hb'
    have hroot : t.root = root := by
      have := Option.some.injEq .. ▸ hb'
      rw [← this]
    have hne : freqs ≠ [] := by
      intro h
      subst h
      exact Option.noConfusion hloop
    have hlen := heapInit_length freqs []
    have hne2 : freqs.foldl (fun d sf => heapPush d ⟨sf.2, .leaf sf.1⟩) [] ≠ [] := by
      intro hh
      rw [hh] at hlen
      simp at hlen
      exact hne (List.length_eq_zero.mp hlen.symm)
    have hlen2 : (freqs.foldl (fun d sf => heapPush d ⟨sf.2, .leaf sf.1⟩) []).length
        ≤ freqs.length + 1 := by
      rw [hlen]
      simp
    obtain ⟨k, hk⟩ := buildLoop_huffAlg (freqs.length + 1) _
      (heapInit_isHeap freqs [] isHeap_nil) hne2 hlen2 root hloop
    rw [heapInit_multiset freqs []] at hk
    simp only [Multiset.coe_nil, zero_add] at hk
    exact ⟨k, hroot ▸ hk⟩

/-! ### Cost of a tree against a weight assignment, and the codebook's paths -/

theorem wsum_add (M1 M2 : Multiset HeapNode) : wsum (M1 + M2) = wsum M1 + wsum M2 := by
  simp [wsum]

/-- Total leaf weight of a tree under a weight assignment. -/
def leafWeight (w : Nat → Nat) : HuffmanNode → Nat
  | .leaf s => w s
  | .internal l r => leafWeight w l + leafWeight w r

/-- Weighted external path length: each leaf's weight times its depth. -/
def treeCost (w : Nat → Nat) : HuffmanNode → Nat
  | .leaf _ => 0
  | .internal l r => treeCost w l + treeCost w r + leafWeight w l + leafWeight w r

/-- A combine-tree over pure leaf entries weighted consistently with `w` costs
exactly the tree's weighted external path length. -/
theorem combines_leaf_treeCost (w : Nat → Nat) :
    ∀ {M : Multiset HeapNode} {t : HuffmanNode} {k : Nat}, Combines M t k →
      (∀ hn ∈ M, ∃ s, hn.node = HuffmanNode.leaf s ∧ hn.freq = w s) →
      wsum M = leafWeight w t ∧ k = treeCost w t := by
  intro M t k h
  induction h with
  | single hn =>
    intro hleaf
    obtain ⟨s, hs, hf⟩ := hleaf hn (Multiset.mem_singleton_self hn)
    constructor
    · rw [hs]
      simp [wsum, leafWeight, hf]
    · rw [hs]
      rfl
  | @node M1 M2 t1 t2 c1 c2 h1 h2 ih1 ih2 =>
    intro hleaf
    obtain ⟨hw1, hc1⟩ := ih1 fun hn hmem => hleaf hn (Multiset.mem_add.mpr (Or.inl hmem))
    obtain ⟨hw2, hc2⟩ := ih2 fun hn hmem => hleaf hn (Multiset.mem_add.mpr (Or.inr hmem))
    constructor
    · rw [wsum_add, hw1, hw2]
      rfl
    · rw [hc1, hc2, hw1, hw2]
      rfl

/-- The codebook paths: each leaf symbol with its root-to-leaf bit path. -/
def leafPaths : HuffmanNode → List (Nat × List Bool)
  | .leaf s => [(s, [])]
  | .internal l r =>
      (leafPaths l).map (fun q => (q.1, false :: q.2)) ++
        (leafPaths r).map (fun q => (q.1, true :: q.2))

theorem leafPaths_fst : ∀ t : HuffmanNode, (leafPaths t).map Prod.fst = t.leafList := by
  intro t
  induction t with
  | leaf s => rfl
  | internal l r ih1 ih2 =>
    simp only [leafPaths, HuffmanNode.leafList, List.map_append, List.map_map]
    rw [show (Prod.fst ∘ fun q : Nat × List Bool => (q.1, false :: q.2)) = Prod.fst from rfl,
      show (Prod.fst ∘ fun q : Nat × List Bool => (q.1, true :: q.2)) = Prod.fst from rfl,
      ih1, ih2]

theorem sum_map_add_nat {α : Type} (l : List α) (f g : α → Nat) :
    (l.map fun x => f x + g x).sum = (l.map f).sum + (l.map g).sum := by
  induction l with
  | nil => rfl
  | cons x xs ih =>
    simp only [List.map_cons, List.sum_cons, ih]
    omega

theorem leafWeight_paths (w : Nat → Nat) :
    ∀ t : HuffmanNode, leafWeight w t = ((leafPaths t).map fun q => w q.1).sum := by
  intro t
  induction t with
  | leaf s => simp [leafWeight, leafPaths]
  | internal l r ih1 ih2 =>
    simp only [leafWeight, leafPaths, List.map_append, List.sum_append, List.map_map]
    rw [show ((fun q : Nat × List Bool => w q.1) ∘ fun q : Nat × List Bool => (q.1, false :: q.2))
        = fun q : Nat × List Bool => w q.1 from rfl,
      show ((fun q : Nat × List Bool => w q.1) ∘ fun q : Nat × List Bool => (q.1, true :: q.2))
        = fun q : Nat × List Bool => w q.1 from rfl, ih1, ih2]

theorem treeCost_paths (w : Nat → Nat) :
    ∀ t : HuffmanNode, treeCost w t = ((leafPaths t).map fun q => w q.1 * q.2.length).sum := by
  intro t
  induction t with
  | leaf s => simp [treeCost, leafPaths]
  | internal l r ih1 ih2 =>
    simp only [treeCost, leafPaths, List.map_append, List.sum_append, List.map_map]
    have hL : ((fun q : Nat × List Bool => w q.1 * q.2.length)
        ∘ fun q : Nat × List Bool => (q.1, false :: q.2))
        = fun q : Nat × List Bool => w q.1 * q.2.length + w q.1 := by
      funext q
      simp [Nat.mul_succ]
    have hR : ((fun q : Nat × List Bool => w q.1 * q.2.length)
        ∘ fun q : Nat × List Bool => (q.1, true :: q.2))
        = fun q : Nat × List Bool => w q.1 * q.2.length + w q.1 := by
      funext q
      simp [Nat.mul_succ]
    rw [hL, hR, sum_map_add_nat, sum_map_add_nat, ih1, ih2,
      leafWeight_paths w l, leafWeight_paths w r]
    ring

/-- `build_codes` leaves symbols outside the subtree untouched. -/
theorem build_codes_not_mem :
    ∀ (t : HuffmanNode) (pre : List Bool) (m : Nat → Option (List Bool)) (s : Nat),
      s ∉ t.leafList → build_codes t pre m s = m s := by
  intro t
  induction t with
  | leaf b =>
    intro pre m s hs
    have hsb : s ≠ b := by simpa [HuffmanNode.leafList] using hs
    simp [build_codes, hsb]
  | internal l r ih1 ih2 =>
    intro pre m s hs
    simp only [HuffmanNode.leafList, List.mem_append] at hs
    push_neg at hs
    simp only [build_codes]
    rw [ih2 _ _ _ hs.2, ih1 _ _ _ hs.1]

/-- On a tree with distinct leaves, `build_codes` maps each leaf symbol to the
accumulated prefix followed by its root-to-leaf path. -/
theorem build_codes_paths :
    ∀ t : HuffmanNode, t.leafList.Nodup →
      ∀ (pre : List Bool) (m : Nat → Option (List Bool)) (q : Nat × List Bool),
        q ∈ leafPaths t → build_codes t pre m q.1 = some (pre ++ q.2) := by
  intro t
  induction t with
  | leaf b =>
    intro _ pre m q hq
    simp only [leafPaths, List.mem_singleton] at hq
    subst hq
    simp [build_codes]
  | internal l r ih1 ih2 =>
    intro hnd pre m q hq
    obtain ⟨hndl, hndr, hdisj⟩ :=
      List.nodup_append.mp (by simpa [HuffmanNode.leafList] using hnd)
    simp only [leafPaths] at hq
    rcases List.mem_append.mp hq with hmem | hmem
    · obtain ⟨q0, hq0, hqeq⟩ := List.mem_map.mp hmem
      have h1 : q.1 = q0.1 := by rw [← hqeq]
      have h2 : q.2 = false :: q0.2 := by rw [← hqeq]
      have hq1l : q0.1 ∈ l.leafList := by
        rw [← leafPaths_fst]
        exact List.mem_map_of_mem Prod.fst hq0
      have hq1r : q0.1 ∉ r.leafList := fun hc => hdisj hq1l hc
      rw [h1, h2]
      simp only [build_codes]
      rw [build_codes_not_mem r _ _ _ hq1r, ih1 hndl (pre ++ [false]) m q0 hq0,
        List.append_assoc]
      rfl
    · obtain ⟨q0, hq0, hqeq⟩ := List.mem_map.mp hmem
      have h1 : q.1 = q0.1 := by rw [← hqeq]
      have h2 : q.2 = true :: q0.2 := by rw [← hqeq]
      rw [h1, h2]
      simp only [build_codes]
      rw [ih2 hndr (pre ++ [true]) _ q0 hq0, List.append_assoc]
      rfl

/-- The table's weight function: look a symbol's frequency up in the list. -/
def lookupW (freqs : List (Nat × Nat)) (s : Nat) : Nat :=
  ((freqs.find? fun p => p.1 == s).map Prod.snd).getD 0

theorem lookupW_eq :
    ∀ freqs : List (Nat × Nat), (freqs.map Prod.fst).Nodup →
      ∀ p ∈ freqs, lookupW freqs p.1 = p.2 := by
  intro freqs
  induction freqs with
  | nil =>
    intro _ p hp
    simp at hp
  | cons q rest ih =>
    intro hnd p hp
    simp only [List.map_cons, List.nodup_cons] at hnd
    rcases List.mem_cons.mp hp with rfl | hmem
    · unfold lookupW
      rw [List.find?_cons_of_pos _ (by simp)]
      rfl
    · have hne : q.1 ≠ p.1 := by
        intro he
        apply hnd.1
        rw [he]
        exact List.mem_map_of_mem Prod.fst hmem
      unfold lookupW
      rw [List.find?_cons_of_neg _ (by simp [hne])]
      exact ih hnd.2 p hmem

/-! ### Any prefix-free assignment dominates some combine-tree -/

theorem sum_map_one {α : Type} (l : List α) : (l.map fun _ => (1 : Nat)).sum = l.length := by
  induction l with
  | nil => rfl
  | cons x xs ih =>
    simp only [List.map_cons, List.sum_cons, List.length_cons, ih]
    omega

theorem length_eq_tail_succ {α : Type} {bs : List α} (h : bs ≠ []) :
    bs.length = bs.tail.length + 1 := by
  cases bs with
  | nil => exact absurd rfl h
  | cons b t => rfl

theorem eq_headD_cons {bs : List Bool} (h : bs ≠ []) : bs = bs.headD false :: bs.tail := by
  cases bs with
  | nil => exact absurd rfl h
  | cons b t => rfl

theorem wsum_leafEntries (m : List (Nat × Nat)) :
    wsum ((m.map leafEntry : List HeapNode) : Multiset HeapNode) = (m.map Prod.snd).sum := by
  induction m with
  | nil => rfl
  | cons p rest ih =>
    rw [List.map_cons, List.map_cons, ← Multiset.cons_coe, wsum_cons, ih]
    rfl

/-- Any prefix-free code assignment on the table's distinct symbols carries a
combine-tree over the table's leaf entries whose cost it dominates. -/
theorem prefixFree_combines :
    ∀ (n : Nat) (l : List (Nat × Nat)) (c : Nat → List Bool),
      ((l.map fun p => (c p.1).length).sum ≤ n) → l ≠ [] →
      (l.map Prod.fst).Nodup →
      (∀ s1 ∈ l.map Prod.fst, ∀ s2 ∈ l.map Prod.fst, s1 ≠ s2 → ¬ (c s1 <+: c s2)) →
      ∃ t k, Combines ((l.map leafEntry : List HeapNode) : Multiset HeapNode) t k ∧
        k ≤ (l.map fun p => p.2 * (c p.1).length).sum := by
  intro n
  induction n using Nat.strong_induction_on with
  | _ n ih =>
    intro l c hsum hne hnd hpf
    rcases l with _ | ⟨x, l1⟩
    · exact absurd rfl hne
    rcases l1 with _ | ⟨y, l2⟩
    · refine ⟨(leafEntry x).node, 0, ?_, Nat.zero_le _⟩
      simpa using Combines.single (leafEntry x)
    · -- at least two distinct symbols: no code may be empty
      have hxy : x.1 ≠ y.1 := by
        simp only [List.map_cons, List.nodup_cons] at hnd
        intro he
        exact hnd.1 (by rw [he]; simp)
      have hnonempty : ∀ p ∈ x :: y :: l2, c p.1 ≠ [] := by
        intro p hp hc0
        by_cases hpx : p.1 = x.1
        · have hpy : p.1 ≠ y.1 := by
            rw [hpx]
            exact hxy
          exact hpf p.1 (List.mem_map_of_mem Prod.fst hp) y.1 (by simp) hpy
            (by rw [hc0]; exact List.nil_prefix)
        · exact hpf p.1 (List.mem_map_of_mem Prod.fst hp) x.1 (by simp) hpx
            (by rw [hc0]; exact List.nil_prefix)
      have hlen2 : 2 ≤ (x :: y :: l2).length := by simp
      have hlensum : (x :: y :: l2).length ≤ ((x :: y :: l2).map fun p => (c p.1).length).sum := by
        rw [← sum_map_one (x :: y :: l2)]
        apply List.sum_le_sum
        intro p hp
        have := hnonempty p hp
        have hpos : 0 < (c p.1).length := List.length_pos.mpr this
        omega
      -- a recursion step shared by the uniform-head cases
      have huniform : ∀ b : Bool, (∀ p ∈ x :: y :: l2, (c p.1).headD false = b) →
          ∃ t k, Combines (((x :: y :: l2).map leafEntry : List HeapNode) : Multiset HeapNode) t k ∧
            k ≤ ((x :: y :: l2).map fun p => p.2 * (c p.1).length).sum := by
        intro b hhb
        have hlentail : ((x :: y :: l2).map fun p => (c p.1).length).sum
            = ((x :: y :: l2).map fun p => ((c p.1).tail).length).sum + (x :: y :: l2).length := by
          rw [← sum_map_one (x :: y :: l2), ← sum_map_add_nat]
          apply congrArg List.sum
          apply List.map_congr_left
          intro p hp
          exact length_eq_tail_succ (hnonempty p hp)
        have hsum' : ((x :: y :: l2).map fun p => ((c p.1).tail).length).sum ≤ n - 1 := by
          omega
        have hpf' : ∀ s1 ∈ (x :: y :: l2).map Prod.fst, ∀ s2 ∈ (x :: y :: l2).map Prod.fst,
            s1 ≠ s2 → ¬ ((c s1).tail <+: (c s2).tail) := by
          intro s1 hs1 s2 hs2 hne12 hpre
          obtain ⟨p, hp, hps⟩ := List.mem_map.mp hs1
          obtain ⟨q, hq, hqs⟩ := List.mem_map.mp hs2
          subst hps
          subst hqs
          apply hpf p.1 hs1 q.1 hs2 hne12
          rw [eq_headD_cons (hnonempty p hp), eq_headD_cons (hnonempty q hq),
            hhb p hp, hhb q hq]
          exact List.cons_prefix_cons.mpr ⟨rfl, hpre⟩
        obtain ⟨t, k, hcomb, hk⟩ := ih (n - 1) (by omega) (x :: y :: l2)
          (fun s => (c s).tail) hsum' (by simp) hnd hpf'
        refine ⟨t, k, hcomb, ?_⟩
        apply le_trans hk
        apply List.sum_le_sum
        intro p hp
        apply Nat.mul_le_mul le_rfl
        rw [length_eq_tail_succ (hnonempty p hp)]
        omega
      by_cases hBe : (x :: y :: l2).filter (fun q => !((c q.1).headD false)) = []
      · -- every code starts with `true`
        apply huniform true
        intro p hp
        have := List.filter_eq_nil_iff.mp hBe p hp
        simpa using this
      by_cases hAe : (x :: y :: l2).filter (fun q => (c q.1).headD false) = []
      · -- every code starts with `false`
        apply huniform false
        intro p hp
        have := List.filter_eq_nil_iff.mp hAe p hp
        simpa using this
      · -- both head bits occur: split the table by the head bit
        have hperm := List.filter_append_perm (fun q => (c q.1).headD false) (x :: y :: l2)
        have hsubA : ((x :: y :: l2).filter (fun q => (c q.1).headD false)).Sublist
            (x :: y :: l2) := List.filter_sublist _
        have hsubB : ((x :: y :: l2).filter (fun q => !((c q.1).headD false))).Sublist
            (x :: y :: l2) := List.filter_sublist _
        have hndA := hnd.sublist (hsubA.map Prod.fst)
        have hndB := hnd.sublist (hsubB.map Prod.fst)
        -- per-side sums split into tail part and weight part
        have hlenA : (((x :: y :: l2).filter (fun q => (c q.1).headD false)).map
              fun p => (c p.1).length).sum
            = (((x :: y :: l2).filter (fun q => (c q.1).headD false)).map
              fun p => ((c p.1).tail).length).sum
              + ((x :: y :: l2).filter (fun q => (c q.1).headD false)).length := by
          rw [← sum_map_one ((x :: y :: l2).filter (fun q => (c q.1).headD false)),
            ← sum_map_add_nat]
          apply congrArg List.sum
          apply List.map_congr_left
          intro p hp
          exact length_eq_tail_succ (hnonempty p (List.mem_of_mem_filter hp))
        have hlenB : (((x :: y :: l2).filter (fun q => !((c q.1).headD false))).map
              fun p => (c p.1).length).sum
            = (((x :: y :: l2).filter (fun q => !((c q.1).headD false))).map
              fun p => ((c p.1).tail).length).sum
              + ((x :: y :: l2).filter (fun q => !((c q.1).headD false))).length := by
          rw [← sum_map_one ((x :: y :: l2).filter (fun q => !((c q.1).headD false))),
            ← sum_map_add_nat]
          apply congrArg List.sum
          apply List.map_congr_left
          intro p hp
          exact length_eq_tail_succ (hnonempty p (List.mem_of_mem_filter hp))
        have hcombine : ∀ f : Nat × Nat → Nat,
            (((x :: y :: l2).filter (fun q => (c q.1).headD false)).map f).sum
              + (((x :: y :: l2).filter (fun q => !((c q.1).headD false))).map f).sum
            = ((x :: y :: l2).map f).sum := by
          intro f
          rw [← List.sum_append, ← List.map_append]
          exact (hperm.map f).sum_eq
        have hApos : 0 < ((x :: y :: l2).filter (fun q => (c q.1).headD false)).length :=
          List.length_pos.mpr hAe
        have hBpos : 0 < ((x :: y :: l2).filter (fun q => !((c q.1).headD false))).length :=
          List.length_pos.mpr hBe
        have hsumL := hcombine fun p => (c p.1).length
        -- recursive bounds for the two halves
        have hsumA : (((x :: y :: l2).filter (fun q => (c q.1).headD false)).map
            fun p => ((c p.1).tail).length).sum ≤ n - 1 := by
          omega
        have hsumB : (((x :: y :: l2).filter (fun q => !((c q.1).headD false))).map
            fun p => ((c p.1).tail).length).sum ≤ n - 1 := by
          omega
        have hpfA : ∀ s1 ∈ ((x :: y :: l2).filter (fun q => (c q.1).headD false)).map Prod.fst,
            ∀ s2 ∈ ((x :: y :: l2).filter (fun q => (c q.1).headD false)).map Prod.fst,
            s1 ≠ s2 → ¬ ((c s1).tail <+: (c s2).tail) := by
          intro s1 hs1 s2 hs2 hne12 hpre
          obtain ⟨p, hp, hps⟩ := List.mem_map.mp hs1
          obtain ⟨q, hq, hqs⟩ := List.mem_map.mp hs2
          subst hps
          subst hqs
          have hmemp := List.mem_of_mem_filter hp
          have hmemq := List.mem_of_mem_filter hq
          have hbp : (c p.1).headD false = true := by simpa using List.of_mem_filter hp
          have hbq : (c q.1).headD false = true := by simpa using List.of_mem_filter hq
          apply hpf p.1 (List.mem_map_of_mem Prod.fst hmemp) q.1
            (List.mem_map_of_mem Prod.fst hmemq) hne12
          rw [eq_headD_cons (hnonempty p hmemp), eq_headD_cons (hnonempty q hmemq), hbp, hbq]
          exact List.cons_prefix_cons.mpr ⟨rfl, hpre⟩
        have hpfB : ∀ s1 ∈ ((x :: y :: l2).filter (fun q => !((c q.1).headD false))).map Prod.fst,
            ∀ s2 ∈ ((x :: y :: l2).filter (fun q => !((c q.1).headD false))).map Prod.fst,
            s1 ≠ s2 → ¬ ((c s1).tail <+: (c s2).tail) := by
          intro s1 hs1 s2 hs2 hne12 hpre
          obtain ⟨p, hp, hps⟩ := List.mem_map.mp hs1
          obtain ⟨q, hq, hqs⟩ := List.mem_map.mp hs2
          subst hps
          subst hqs
          have hmemp := List.mem_of_mem_filter hp
          have hmemq := List.mem_of_mem_filter hq
          have hbp : (c p.1).headD false = false := by simpa using List.of_mem_filter hp
          have hbq : (c q.1).headD false = false := by simpa using List.of_mem_filter hq
          apply hpf p.1 (List.mem_map_of_mem Prod.fst hmemp) q.1
            (List.mem_map_of_mem Prod.fst hmemq) hne12
          rw [eq_headD_cons (hnonempty p hmemp), eq_headD_cons (hnonempty q hmemq), hbp, hbq]
          exact List.cons_prefix_cons.mpr ⟨rfl, hpre⟩
        have hneA : (x :: y :: l2).filter (fun q => (c q.1).headD false) ≠ [] := hAe
        have hneB : (x :: y :: l2).filter (fun q => !((c q.1).headD false)) ≠ [] := hBe
        obtain ⟨tA, kA, hcA, hkA⟩ := ih (n - 1) (by omega)
          ((x :: y :: l2).filter (fun q => (c q.1).headD false))
          (fun s => (c s).tail) hsumA hneA hndA hpfA
        obtain ⟨tB, kB, hcB, hkB⟩ := ih (n - 1) (by omega)
          ((x :: y :: l2).filter (fun q => !((c q.1).headD false)))
          (fun s => (c s).tail) hsumB hneB hndB hpfB
        have hnode := Combines.node hcA hcB
        refine ⟨.internal tA tB, _, hnode.cast ?_ rfl, ?_⟩
        · rw [Multiset.coe_add, ← List.map_append]
          exact Multiset.coe_eq_coe.mpr (hperm.map leafEntry)
        · -- the combined cost is dominated by the weighted length sum
          rw [wsum_leafEntries, wsum_leafEntries]
          have hsideA : kA + (((x :: y :: l2).filter
                (fun q => (c q.1).headD false)).map Prod.snd).sum
              ≤ (((x :: y :: l2).filter (fun q => (c q.1).headD false)).map
                fun p => p.2 * (c p.1).length).sum := by
            have hsplit : (((x :: y :: l2).filter (fun q => (c q.1).headD false)).map
                  fun p => p.2 * (c p.1).length).sum
                = (((x :: y :: l2).filter (fun q => (c q.1).headD false)).map
                  fun p => p.2 * ((c p.1).tail).length).sum
                  + (((x :: y :: l2).filter (fun q => (c q.1).headD false)).map Prod.snd).sum := by
              rw [← sum_map_add_nat]
              apply congrArg List.sum
              apply List.map_congr_left
              intro p hp
              rw [length_eq_tail_succ (hnonempty p (List.mem_of_mem_filter hp)), Nat.mul_succ]
            omega
          have hsideB : kB + (((x :: y :: l2).filter
                (fun q => !((c q.1).headD false))).map Prod.snd).sum
              ≤ (((x :: y :: l2).filter (fun q => !((c q.1).headD false))).map
                fun p => p.2 * (c p.1).length).sum := by
            have hsplit : (((x :: y :: l2).filter (fun q => !((c q.1).headD false))).map
                  fun p => p.2 * (c p.1).length).sum
                = (((x :: y :: l2).filter (fun q => !((c q.1).headD false))).map
                  fun p => p.2 * ((c p.1).tail).length).sum
                  + (((x :: y :: l2).filter (fun q => !((c q.1).headD false))).map Prod.snd).sum := by
              rw [← sum_map_add_nat]
              apply congrArg List.sum
              apply List.map_congr_left
              intro p hp
              rw [length_eq_tail_succ (hnonempty p (List.mem_of_mem_filter hp)), Nat.mul_succ]
            omega
          have hcost := hcombine fun p => p.2 * (c p.1).length
          omega

/-- Weighted total code length of the built codebook over the table. -/
def codebookCost (freqs : List (Nat × Nat)) (codes : Nat → Option (List Bool)) : Nat :=
  (freqs.map fun p => p.2 * ((codes p.1).getD []).length).sum

/-- Weighted total code length of an arbitrary assignment over the table. -/
def assignmentCost (freqs : List (Nat × Nat)) (c : Nat → List Bool) : Nat :=
  (freqs.map fun p => p.2 * (c p.1).length).sum

/-- Total weight of the table. -/
def totalFreq (freqs : List (Nat × Nat)) : Nat := (freqs.map Prod.snd).sum

/-- C9: for every frequency table with distinct symbols on which `build`
succeeds, the built codebook's weighted total code length — hence also its
weighted average code length — is at most that of every prefix-free code
assignment for the same symbols and weights. -/
theorem c9_huffman_optimal (freqs : List (Nat × Nat)) (t : HuffmanTree)
    (hnd : (freqs.map Prod.fst).Nodup)
    (hb : HuffmanTree.build freqs = some t)
    (c : Nat → List Bool)
    (hpf : ∀ s1 ∈ freqs.map Prod.fst, ∀ s2 ∈ freqs.map Prod.fst,
      s1 ≠ s2 → ¬ (c s1 <+: c s2)) :
    codebookCost freqs t.codes ≤ assignmentCost freqs c ∧
    (codebookCost freqs t.codes : ℚ) / (totalFreq freqs : ℚ)
      ≤ (assignmentCost freqs c : ℚ) / (totalFreq freqs : ℚ) := by
  have hne : freqs ≠ [] := by
    intro h
    rw [h, build_empty] at hb
    exact Option.noConfusion hb
  obtain ⟨t2, hb2, hleafM, hcodes2⟩ := build_spec freqs hne
  rw [hb] at hb2
  have ht2 : t = t2 := Option.some.inj hb2
  subst ht2
  have hndLeaf : t.root.leafList.Nodup :=
    Multiset.coe_nodup.mp (by rw [hleafM]; exact Multiset.coe_nodup.mpr hnd)
  have hpermLeaf : List.Perm t.root.leafList (freqs.map Prod.fst) :=
    Multiset.coe_eq_coe.mp hleafM
  obtain ⟨k, halg⟩ := build_huffAlg freqs t hb
  have hcomb := huffAlg_to_combines halg
  have hleafhyp : ∀ hn ∈ ((freqs.map leafEntry : List HeapNode) : Multiset HeapNode),
      ∃ s, hn.node = HuffmanNode.leaf s ∧ hn.freq = lookupW freqs s := by
    intro hn hmem
    rw [Multiset.mem_coe] at hmem
    obtain ⟨p, hp, hpe⟩ := List.mem_map.mp hmem
    refine ⟨p.1, ?_, ?_⟩
    · rw [← hpe]
      rfl
    · rw [← hpe]
      exact (lookupW_eq freqs hnd p hp).symm
  obtain ⟨hw, hk⟩ := combines_leaf_treeCost (lookupW freqs) hcomb hleafhyp
  have hcb : codebookCost freqs t.codes = treeCost (lookupW freqs) t.root := by
    unfold codebookCost
    have h1 : (freqs.map fun p => p.2 * ((t.codes p.1).getD []).length)
        = freqs.map fun p => lookupW freqs p.1 * ((t.codes p.1).getD []).length := by
      apply List.map_congr_left
      intro p hp
      rw [lookupW_eq freqs hnd p hp]
    rw [h1]
    have h2 : (freqs.map fun p => lookupW freqs p.1 * ((t.codes p.1).getD []).length)
        = (freqs.map Prod.fst).map fun s => lookupW freqs s * ((t.codes s).getD []).length := by
      rw [List.map_map]
      rfl
    rw [h2]
    have h3 := (hpermLeaf.map fun s =>
      lookupW freqs s * ((t.codes s).getD []).length).sum_eq
    rw [← h3, ← leafPaths_fst t.root, List.map_map, treeCost_paths (lookupW freqs) t.root]
    apply congrArg List.sum
    apply List.map_congr_left
    intro q hq
    show lookupW freqs q.1 * ((t.codes q.1).getD []).length = lookupW freqs q.1 * q.2.length
    rw [hcodes2, build_codes_paths t.root hndLeaf [] (fun _ => none) q hq]
    rfl
  obtain ⟨t3, k3, hcomb3, hk3⟩ := prefixFree_combines
    ((freqs.map fun p => (c p.1).length).sum) freqs c le_rfl hne hnd hpf
  have hmin : k ≤ k3 := huffAlg_combines_min halg hcomb3
  have hNat : codebookCost freqs t.codes ≤ assignmentCost freqs c := by
    rw [hcb, ← hk]
    exact le_trans hmin hk3
  exact ⟨hNat, div_le_div_of_nonneg_right (Nat.cast_le.mpr hNat) (Nat.cast_nonneg _)⟩

/-- A rival prefix-free assignment for the spec's example table: three
fixed-length two-bit codes. -/
def abcRival : Nat → List Bool := fun s =>
  if s = 97 then [false, false] else if s = 98 then [false, true] else [true, false]

/-- Witness for C9 at the spec's example table: the built codebook beats the
uniform two-bit assignment. -/
theorem c9_huffman_optimal_witness :
    (abcFreqs.map Prod.fst).Nodup ∧ HuffmanTree.build abcFreqs = some abcTree ∧
      codebookCost abcFreqs abcTree.codes ≤ assignmentCost abcFreqs abcRival := by
  refine ⟨by decide, build_abc, ?_⟩
  exact (c9_huffman_optimal abcFreqs abcTree (by decide) build_abc abcRival (by decide)).1

end LangEncode
